import Mathlib

/-!
Shallow embedding of dsub/lib/param_util.py.

Python strings are modelled as lists of characters (`Chars`); Python
exceptions as `Except Err`.  The code under study performs no filesystem
access: the os.path functions it calls (split, join, dirname, basename,
normpath, abspath) are pure string transformations with posixpath
(Python 2.7) semantics and are embedded below.  `os.getenv('HOME')` and
`os.getcwd()` (used by `os.path.abspath`) are modelled by a `PyEnv`
record carrying the two strings.  The fixed regular expressions of the
source are embedded as specialised recursive functions whose semantics
match `re.match` / `re.sub` on those patterns; each carries a comment
naming the pattern it embeds.
-/

abbrev Chars := List Char

/-- Python `s.startswith(p)` : `startsW p s` is true when `p` is a prefix of `s`. -/
def startsW : Chars → Chars → Bool
  | [], _ => true
  | _ :: _, [] => false
  | p :: ps, c :: cs => p == c && startsW ps cs

/-- Python `s.endswith(p)`. -/
def endsW (p s : Chars) : Bool := startsW p.reverse s.reverse

/-- Python `p in s` (substring containment). -/
def hasSub (pat : Chars) : Chars → Bool
  | [] => startsW pat []
  | c :: rest => startsW pat (c :: rest) || hasSub pat rest

/-- Python `s.rstrip('/')`. -/
def rstripSlash (l : Chars) : Chars :=
  (l.reverse.dropWhile (fun c => c == '/')).reverse

/-- Python `s.lstrip('./')` : strips any leading characters from the set `.` `/`. -/
def pyLstripDotSlash (l : Chars) : Chars :=
  l.dropWhile (fun c => c == '.' || c == '/')

/-- Python `s.split('/')` (unbounded split on every slash). -/
def splitOnSlash : Chars → List Chars
  | [] => [[]]
  | c :: rest =>
    if c == '/' then [] :: splitOnSlash rest
    else
      match splitOnSlash rest with
      | [] => [[c]]
      | t :: ts => (c :: t) :: ts

/-- Python `'/'.join(parts)`. -/
def joinSlash : List Chars → Chars
  | [] => []
  | [x] => x
  | x :: xs => x ++ '/' :: joinSlash xs

/-- Python `s.split(sep, 1)` restricted to a single-character separator:
`none` when the separator does not occur, otherwise the parts around the
first occurrence. -/
def splitFirst (sep : Char) : Chars → Option (Chars × Chars)
  | [] => none
  | c :: rest =>
    if c == sep then some ([], rest)
    else
      match splitFirst sep rest with
      | none => none
      | some (a, b) => some (c :: a, b)

/-- Raw head/tail of `posixpath.split`: `hd` is everything up to and
including the last `/` (empty when there is none), `tl` the remainder. -/
def posixSplitRaw (u : Chars) : Chars × Chars :=
  let rev := u.reverse
  ((rev.dropWhile (fun c => !(c == '/'))).reverse,
   (rev.takeWhile (fun c => !(c == '/'))).reverse)

/-- Python `all slashes` test used by posixpath.split/dirname
(`head != '/'*len(head)`). -/
def allSlashes (l : Chars) : Bool := l.all (fun c => c == '/')

/-- posixpath.split (Python 2.7): the head keeps its trailing slash only
when it consists solely of slashes; otherwise trailing slashes are
stripped. -/
def posixSplit (u : Chars) : Chars × Chars :=
  let r := posixSplitRaw u
  (if !(r.1 == []) && !(allSlashes r.1) then rstripSlash r.1 else r.1, r.2)

/-- posixpath.dirname. -/
def posixDirname (u : Chars) : Chars := (posixSplit u).1

/-- posixpath.basename. -/
def posixBasename (u : Chars) : Chars := (posixSplit u).2

/-- posixpath.join restricted to two arguments, as used by the source. -/
def pyJoin (a b : Chars) : Chars :=
  if startsW ['/'] b then b
  else if a == [] then b
  else if endsW ['/'] a then a ++ b
  else a ++ '/' :: b

/-- directory_fmt from param_util.py: strip trailing `/` then append
exactly one `/`. -/
def directoryFmt (d : Chars) : Chars := rstripSlash d ++ ['/']

/-- Component filter loop of posixpath.normpath (Python 2.7). -/
def normpathFold (initialSlashes : Nat) (acc : List Chars) : List Chars → List Chars
  | [] => acc
  | comp :: rest =>
    if comp == [] || comp == ['.'] then normpathFold initialSlashes acc rest
    else if !(comp == ['.', '.']) || (initialSlashes == 0 && acc == [])
            || (!(acc == []) && acc.getLast? == some ['.', '.']) then
      normpathFold initialSlashes (acc ++ [comp]) rest
    else if !(acc == []) then normpathFold initialSlashes acc.dropLast rest
    else normpathFold initialSlashes acc rest

/-- posixpath.normpath (Python 2.7). -/
def normpath (p : Chars) : Chars :=
  if p == [] then ['.']
  else
    let initialSlashes : Nat :=
      if startsW ['/', '/'] p && !(startsW ['/', '/', '/'] p) then 2
      else if startsW ['/'] p then 1 else 0
    let newComps := normpathFold initialSlashes [] (splitOnSlash p)
    let res := List.replicate initialSlashes '/' ++ joinSlash newComps
    if res == [] then ['.'] else res

/-- posixpath.isabs. -/
def isAbs (p : Chars) : Bool := startsW ['/'] p

/-- Environment of the process: `os.getenv('HOME')` and `os.getcwd()`.
The source assumes HOME is set (a None would crash `os.path.join`). -/
structure PyEnv where
  home : Chars
  cwd : Chars
deriving DecidableEq

/-- posixpath.abspath: resolve against the current working directory and
normalize. -/
def abspath (cwd p : Chars) : Chars :=
  normpath (if isAbs p then p else pyJoin cwd p)

/-- Python `s.replace(old, new, 1)`: replace the first occurrence only. -/
def replaceFirst (pat rep : Chars) : Chars → Chars
  | [] => if startsW pat [] then rep else []
  | c :: rest =>
    if startsW pat (c :: rest) then rep ++ (c :: rest).drop pat.length
    else c :: replaceFirst pat rep rest

/-- Replacement text `_dotdot_`. -/
def ddRepl : Chars := ['_', 'd', 'o', 't', 'd', 'o', 't', '_']

/-- Replacement text `_home_/`. -/
def homeRepl : Chars := ['_', 'h', 'o', 'm', 'e', '_', '/']

/-- re.sub of the pattern slash-dot-dot with replacement `/_dotdot_`:
a left-to-right scan replacing every (necessarily non-overlapping)
occurrence of the three characters `/..`. -/
def subSlashDD : Chars → Chars
  | [] => []
  | c :: rest =>
    if c == '/' && startsW ['.', '.'] rest then
      '/' :: (ddRepl ++ subSlashDD (rest.drop 2))
    else c :: subSlashDD rest
termination_by l => l.length
decreasing_by
  · simp only [List.length_drop, List.length_cons]; omega
  · simp

/-- re.sub of the caret-anchored pattern dot-dot with replacement
`_dotdot_`: only a leading `..` is rewritten. -/
def subCaretDD (t : Chars) : Chars :=
  if startsW ['.', '.'] t then ddRepl ++ t.drop 2 else t

/-- re.sub of the caret-anchored pattern `~/` with replacement `_home_/`. -/
def subCaretHome (t : Chars) : Chars :=
  if startsW ['~', '/'] t then homeRepl ++ t.drop 2 else t

/-- The literal `file:/`. -/
def fileColonS : Chars := ['f', 'i', 'l', 'e', ':', '/']

/-- The literal `file:///`. -/
def fileColon3S : Chars := ['f', 'i', 'l', 'e', ':', '/', '/', '/']

/-- re.sub of the caret-anchored pattern `file:/` with empty replacement. -/
def subCaretFileColon (t : Chars) : Chars :=
  if startsW fileColonS t then t.drop 6 else t

/-- The literal `file/`. -/
def fileSlashS : Chars := ['f', 'i', 'l', 'e', '/']

/-- FileParamUtil._local_uri_rewriter: returns (normalized uri, docker
path before the relative-path join).  The prefix replacements for the
normalized uri are applied sequentially, each test seeing the previous
result; the docker rewrites likewise. -/
def localUriRewriter (env : PyEnv) (rawUri : Chars) : Chars × Chars :=
  let sp := posixSplit rawUri
  let rawPath := sp.1
  let filename := sp.2
  let n1 := if startsW fileColon3S rawPath then pyJoin ['/'] (rawPath.drop 8) else rawPath
  let n2 := if startsW ['~', '/'] n1 then pyJoin env.home (n1.drop 2) else n1
  let n3 := if startsW ['.', '/'] n2 then pyJoin [] (n2.drop 2) else n2
  let n4 := if startsW fileColonS n3 then pyJoin ['/'] (n3.drop 6) else n3
  let normedUri := pyJoin (directoryFmt (abspath env.cwd n4)) filename
  let d1 := subSlashDD (normpath rawPath)
  let d2 := subCaretDD d1
  let d3 := subCaretHome d2
  let d4 := subCaretFileColon d3
  let d5 := pyLstripDotSlash d4
  let dockerPath := directoryFmt (fileSlashS ++ d5) ++ filename
  (normedUri, dockerPath)

/-- The literal `gs://`. -/
def gsSchemeS : Chars := ['g', 's', ':', '/', '/']

/-- The literal `gs/`. -/
def gsSlashS : Chars := ['g', 's', '/']

/-- FileParamUtil._gcs_uri_rewriter: the normalized uri is the raw uri;
the docker path replaces the first `gs://` with `gs/`. -/
def gcsUriRewriter (rawUri : Chars) : Chars × Chars :=
  (rawUri, replaceFirst gsSchemeS gsSlashS rawUri)

/-- Error taxonomy of param_util.py.  Every ValueError / TypeError /
IndexError raised by the embedded code is mapped to one constructor. -/
inductive Err
  | invalidName
  | invalidLabel
  | typeError
  | unsupportedProvider
  | unsupportedPath
  | unrecognizedColumn
  | noTasks
  | indexError
  | invalidAge
deriving DecidableEq

/-- File providers P_LOCAL and P_GCS.  `rewrite_uris` raises for any
other provider; the closed enum makes that branch unrepresentable. -/
inductive FileProvider
  | pLocal
  | pGcs
deriving DecidableEq

/-- FileParamUtil.rewrite_uris: dispatch on provider, then join the
caller-supplied relative path onto the docker path. -/
def rewriteUris (relPath : Chars) (env : PyEnv) (rawUri : Chars) :
    FileProvider → Chars × Chars
  | .pGcs => let r := gcsUriRewriter rawUri; (r.1, pyJoin relPath r.2)
  | .pLocal => let r := localUriRewriter env rawUri; (r.1, pyJoin relPath r.2)

/-- Character class of the scheme-detecting regular expression:
letters, digits, `+`, `.`, `-`. -/
def schemeChar (c : Char) : Bool :=
  c.isAlpha || c.isDigit || c == '+' || c == '.' || c == '-'

/-- The literal `://`. -/
def colonSlash2 : Chars := [':', '/', '/']

/-- re.match of the anchored pattern: one ASCII letter, then up to 29
characters from `schemeChar`, then `://`; returns the captured scheme
token.  Because `:` is not a scheme character, the greedy backtracking
match of the regex succeeds for exactly one token length, which is the
maximal scheme-character run (when that run is short enough and is
followed by `://`). -/
def matchScheme : Chars → Option Chars
  | [] => none
  | c :: rest =>
    if c.isAlpha then
      let run := rest.takeWhile schemeChar
      if decide (run.length ≤ 29) && startsW colonSlash2 (rest.drop run.length) then
        some (c :: run)
      else none
    else none

/-- The literal `gs`. -/
def gsS : Chars := ['g', 's']

/-- The literal `file`. -/
def fileS : Chars := ['f', 'i', 'l', 'e']

/-- The providers dict lookup of parse_file_provider: `gs` maps to
P_GCS, `file` to P_LOCAL, anything else raises. -/
def providerOf (pre : Chars) : Except Err FileProvider :=
  if pre == gsS then .ok .pGcs
  else if pre == fileS then .ok .pLocal
  else .error .unsupportedProvider

/-- FileParamUtil.parse_file_provider: the lowercased scheme token when
the regex matches, else `file`. -/
def parseFileProvider (uri : Chars) : Except Err FileProvider :=
  match matchScheme uri with
  | some tok => providerOf (tok.map Char.toLower)
  | none => providerOf fileS

/-- FileParamUtil._validate_paths_or_fail.  The path and filename both
come from `os.path.split(uri)`. -/
def validatePathsOrFail (uri : Chars) (recursive : Bool) : Except Err Unit :=
  if uri.contains '[' || uri.contains ']' then .error .unsupportedPath
  else if uri.contains '?' then .error .unsupportedPath
  else if (posixSplit uri).1.contains '*' then .error .unsupportedPath
  else if hasSub ['*', '*'] (posixSplit uri).2 then .error .unsupportedPath
  else if (posixSplit uri).2 == ['.', '.'] || (posixSplit uri).2 == ['.'] then
    .error .unsupportedPath
  else if !recursive && (posixSplit uri).2 == [] then .error .unsupportedPath
  else .ok ()

/-- First character class of the posix name pattern. -/
def isNameStart (c : Char) : Bool := c.isAlpha || c == '_'

/-- Remaining character class of the posix name pattern. -/
def isNameChar (c : Char) : Bool := c.isAlpha || c.isDigit || c == '_'

/-- Core of the anchored posix-name pattern (letters or underscore,
then letters, digits or underscores). -/
def matchesNameCore : Chars → Bool
  | [] => false
  | c :: rest => isNameStart c && rest.all isNameChar

/-- validate_param_name's regex test.  A dollar anchor in Python also
matches just before one final newline, hence the second disjunct. -/
def validParamName (n : Chars) : Bool :=
  matchesNameCore n || (n.getLast? == some '\n' && matchesNameCore n.dropLast)

/-- Character class of the label pattern body. -/
def isLabelChar (c : Char) : Bool :=
  c == '-' || c == '_' || c.isLower || c.isDigit

/-- Core of the anchored label pattern (lowercase letter, then dashes,
underscores, lowercase letters or digits). -/
def matchesLabelCore : Chars → Bool
  | [] => false
  | c :: rest => c.isLower && rest.all isLabelChar

/-- The label regex test, with the dollar-before-final-newline nuance. -/
def matchesLabelPat (s : Chars) : Bool :=
  matchesLabelCore s || (s.getLast? == some '\n' && matchesLabelCore s.dropLast)

/-- LabelParam._check_label_rule. -/
def checkLabelRule (v : Chars) : Except Err Unit :=
  if v.length < 1 || v.length > 63 then .error .invalidLabel
  else if !(matchesLabelPat v) then .error .invalidLabel
  else .ok ()

/-- RESERVED_LABELS. -/
def reservedLabels : List Chars :=
  [['j', 'o', 'b', '-', 'n', 'a', 'm', 'e'],
   ['j', 'o', 'b', '-', 'i', 'd'],
   ['u', 's', 'e', 'r', '-', 'i', 'd'],
   ['t', 'a', 's', 'k', '-', 'i', 'd'],
   ['d', 's', 'u', 'b', '-', 'v', 'e', 'r', 's', 'i', 'o', 'n']]

/-- EnvParam record (value is optional). -/
structure EnvParam where
  name : Chars
  value : Option Chars
deriving DecidableEq

/-- EnvParam.__new__: validate the name (a None name would raise
TypeError inside re.match). -/
def mkEnvParam (name : Option Chars) (value : Option Chars) : Except Err EnvParam :=
  match name with
  | none => .error .typeError
  | some n => if validParamName n then .ok ⟨n, value⟩ else .error .invalidName

/-- LabelParam record (value is optional). -/
structure LabelParam where
  name : Chars
  value : Option Chars
deriving DecidableEq

/-- LabelParam.__new__ / validate_label with _allow_reserved_keys False:
check the name rule, the value rule when the value is truthy (a present,
non-empty string), and the reserved-key set. -/
def mkLabelParam (name : Option Chars) (value : Option Chars) : Except Err LabelParam :=
  match name with
  | none => .error .typeError
  | some n =>
    match checkLabelRule n with
    | .error e => .error e
    | .ok _ =>
      let valueCheck : Except Err Unit :=
        match value with
        | some v => if v == [] then .ok () else checkLabelRule v
        | none => .ok ()
      match valueCheck with
      | .error e => .error e
      | .ok _ =>
        if reservedLabels.contains n then .error .invalidLabel else .ok ⟨n, value⟩

/-- UriParts: the uri value is `path ++ basename`. -/
structure UriParts where
  path : Chars
  basename : Chars
deriving DecidableEq

/-- UriParts construction used by parse_uri:
`UriParts(directory_fmt(os.path.dirname(uri)), os.path.basename(uri))`. -/
def mkUriParts (uri : Chars) : UriParts :=
  ⟨directoryFmt (posixSplit uri).1, (posixSplit uri).2⟩

/-- The full string value of a UriParts (it subclasses str). -/
def uriPartsVal (p : UriParts) : Chars := p.path ++ p.basename

/-- FileParam record shared by InputFileParam and OutputFileParam (the
two subclasses differ only in the error text of name validation). -/
structure FileParam where
  name : Chars
  value : Chars
  dockerPath : Chars
  uri : UriParts
  recursive : Bool
  fileProvider : FileProvider
deriving DecidableEq

/-- Recursive URIs are forced to directory form before anything else
(the `raw_uri = directory_fmt(raw_uri)` line of parse_uri). -/
def recUri (recursive : Bool) (rawUri : Chars) : Chars :=
  if recursive then directoryFmt rawUri else rawUri

/-- FileParamUtil.parse_uri: force directory form when recursive, then
detect the provider, validate, rewrite, and split the normalized uri. -/
def parseUri (env : PyEnv) (relPath : Chars) (rawUri : Chars) (recursive : Bool) :
    Except Err (Chars × UriParts × FileProvider) :=
  match parseFileProvider (recUri recursive rawUri) with
  | .error e => .error e
  | .ok fp =>
    match validatePathsOrFail (recUri recursive rawUri) recursive with
    | .error e => .error e
    | .ok _ =>
      let rw := rewriteUris relPath env (recUri recursive rawUri) fp
      .ok (rw.2, mkUriParts rw.1, fp)

/-- FileParamUtil.make_param: parse the uri, then the param-class
constructor validates the name. -/
def makeParam (env : PyEnv) (relPath : Chars) (name rawUri : Chars) (recursive : Bool) :
    Except Err FileParam :=
  match parseUri env relPath rawUri recursive with
  | .error e => .error e
  | .ok (docker, parts, fp) =>
    if validParamName name then .ok ⟨name, rawUri, docker, parts, recursive, fp⟩
    else .error .invalidName

/-- Mutable part of a FileParamUtil instance: the auto-name counter and
the configuration fixed at construction. -/
structure FPUtil where
  autoPref : Chars
  autoIndex : Nat
  relPath : Chars
deriving DecidableEq

/-- AUTO_PREFIX_INPUT. -/
def autoPrefInput : Chars := ['I', 'N', 'P', 'U', 'T', '_']

/-- AUTO_PREFIX_OUTPUT. -/
def autoPrefOutput : Chars := ['O', 'U', 'T', 'P', 'U', 'T', '_']

/-- FileParamUtil.get_variable_name: a falsy name (None or empty) is
replaced by the auto-generated one and the counter advances. -/
def getVariableName (u : FPUtil) (name : Option Chars) : Chars × FPUtil :=
  let isFalsy := match name with | none => true | some n => n == []
  if isFalsy then
    (u.autoPref ++ Nat.toDigits 10 u.autoIndex, { u with autoIndex := u.autoIndex + 1 })
  else (name.getD [], u)

/-- LoggingParam record; both fields absent when logging is not
configured. -/
structure LoggingParam where
  uri : Option UriParts
  fileProvider : Option FileProvider
deriving DecidableEq

/-- The literal `.log`. -/
def dotLogS : Chars := ['.', 'l', 'o', 'g']

/-- build_logging_param: empty uri gives the empty LoggingParam;
otherwise recursive-ness is inferred from the `.log` suffix, the uri is
resolved with an OutputFileParamUtil('') (relative path empty), and a
`*` in the resolved basename is rejected. -/
def buildLoggingParam (env : PyEnv) (loggingUri : Chars) : Except Err LoggingParam :=
  if loggingUri == [] then .ok ⟨none, none⟩
  else
    let recursive := !(endsW dotLogS loggingUri)
    match parseUri env [] loggingUri recursive with
    | .error e => .error e
    | .ok (_, parts, fp) =>
      if parts.basename.contains '*' then .error .unsupportedPath
      else .ok ⟨some parts, some fp⟩

/-- split_pair: split on the first separator; when absent, the side
named by nullable_idx is None; any other index raises IndexError. -/
def splitPair (s : Chars) (sep : Char) (nullableIdx : Nat) :
    Except Err (Option Chars × Option Chars) :=
  match splitFirst sep s with
  | some (a, b) => .ok (some a, some b)
  | none =>
    if nullableIdx == 0 then .ok (none, some s)
    else if nullableIdx == 1 then .ok (some s, none)
    else .error .indexError

/-- Header-derived column descriptors of the task table compiler. -/
inductive HeaderParam
  | envH (name : Chars)
  | labelH (name : Chars)
  | inputH (name : Chars) (recursive : Bool)
  | outputH (name : Chars) (recursive : Bool)
deriving DecidableEq

/-- The literal `--env`. -/
def dashEnvS : Chars := ['-', '-', 'e', 'n', 'v']

/-- The literal `--label`. -/
def dashLabelS : Chars := ['-', '-', 'l', 'a', 'b', 'e', 'l']

/-- The literal `--input`. -/
def dashInputS : Chars := ['-', '-', 'i', 'n', 'p', 'u', 't']

/-- The literal `--input-recursive`. -/
def dashInputRecS : Chars :=
  ['-', '-', 'i', 'n', 'p', 'u', 't', '-', 'r', 'e', 'c', 'u', 'r', 's', 'i', 'v', 'e']

/-- The literal `--output`. -/
def dashOutputS : Chars := ['-', '-', 'o', 'u', 't', 'p', 'u', 't']

/-- The literal `--output-recursive`. -/
def dashOutputRecS : Chars :=
  ['-', '-', 'o', 'u', 't', 'p', 'u', 't', '-', 'r', 'e', 'c', 'u', 'r', 's', 'i', 'v', 'e']

/-- The column-type/value split of parse_tasks_file_header: a bareword
is sugar for an env column; a dash-led token is split on the first
blank. -/
def headerColSplit (col : Chars) : Chars × Option Chars :=
  if startsW ['-'] col then
    match splitFirst ' ' col with
    | none => (col, none)
    | some p => (p.1, some p.2)
  else (dashEnvS, some col)

/-- The column-type dispatch of parse_tasks_file_header.  The recursive
flag of a file column comes from the `-recursive` suffix of the column
type, which inside each branch is equivalent to equality with the
recursive spelling. -/
def parseHeaderColWith (inU outU : FPUtil) (colType : Chars) (colValue : Option Chars) :
    Except Err (HeaderParam × FPUtil × FPUtil) :=
  if colType == dashEnvS then
    match mkEnvParam colValue none with
    | .error e => .error e
    | .ok e => .ok (.envH e.name, inU, outU)
  else if colType == dashLabelS then
    match mkLabelParam colValue none with
    | .error e => .error e
    | .ok l => .ok (.labelH l.name, inU, outU)
  else if colType == dashInputS || colType == dashInputRecS then
    let r := getVariableName inU colValue
    if validParamName r.1 then .ok (.inputH r.1 (colType == dashInputRecS), r.2, outU)
    else .error .invalidName
  else if colType == dashOutputS || colType == dashOutputRecS then
    let r := getVariableName outU colValue
    if validParamName r.1 then .ok (.outputH r.1 (colType == dashOutputRecS), inU, r.2)
    else .error .invalidName
  else .error .unrecognizedColumn

/-- One column of parse_tasks_file_header. -/
def parseHeaderCol (inU outU : FPUtil) (col : Chars) :
    Except Err (HeaderParam × FPUtil × FPUtil) :=
  parseHeaderColWith inU outU (headerColSplit col).1 (headerColSplit col).2

/-- parse_tasks_file_header: fold the columns, threading both
auto-name counters. -/
def parseTasksFileHeader (header : List Chars) (inU outU : FPUtil) :
    Except Err (List HeaderParam × FPUtil × FPUtil) :=
  match header with
  | [] => .ok ([], inU, outU)
  | col :: rest =>
    match parseHeaderCol inU outU col with
    | .error e => .error e
    | .ok (p, inU2, outU2) =>
      match parseTasksFileHeader rest inU2 outU2 with
      | .error e => .error e
      | .ok (ps, inU3, outU3) => .ok (p :: ps, inU3, outU3)

/-- One cell's parameter, tagged with the list it is appended to. -/
inductive RowItem
  | envI (e : EnvParam)
  | labelI (l : LabelParam)
  | inI (f : FileParam)
  | outI (f : FileParam)
deriving DecidableEq

/-- Build one row cell against its header descriptor (the body of the
`for i in range(0, len(job_params))` loop). -/
def buildRowItem (env : PyEnv) (inRel outRel : Chars) :
    HeaderParam → Chars → Except Err RowItem
  | .envH nm, cell =>
    match mkEnvParam (some nm) (some cell) with
    | .error e => .error e
    | .ok e => .ok (.envI e)
  | .labelH nm, cell =>
    match mkLabelParam (some nm) (some cell) with
    | .error e => .error e
    | .ok l => .ok (.labelI l)
  | .inputH nm rec, cell =>
    match makeParam env inRel nm cell rec with
    | .error e => .error e
    | .ok f => .ok (.inI f)
  | .outputH nm rec, cell =>
    match makeParam env outRel nm cell rec with
    | .error e => .error e
    | .ok f => .ok (.outI f)

/-- The per-row loop: Python indexes `row[i]` for every header column,
so a row with fewer cells than the header raises IndexError at the
first missing index; extra cells are never read. -/
def processRow (env : PyEnv) (inRel outRel : Chars) :
    List HeaderParam → List Chars → Except Err (List RowItem)
  | [], _ => .ok []
  | _ :: _, [] => .error .indexError
  | p :: ps, cell :: cells =>
    match buildRowItem env inRel outRel p cell with
    | .error e => .error e
    | .ok it =>
      match processRow env inRel outRel ps cells with
      | .error e => .error e
      | .ok rest => .ok (it :: rest)

/-- Collect the env params of a row, in column order. -/
def collectEnvs (items : List RowItem) : List EnvParam :=
  items.filterMap (fun it => match it with | .envI e => some e | _ => none)

/-- Collect the label params of a row, in column order. -/
def collectLabels (items : List RowItem) : List LabelParam :=
  items.filterMap (fun it => match it with | .labelI l => some l | _ => none)

/-- Collect the input file params of a row, in column order. -/
def collectIns (items : List RowItem) : List FileParam :=
  items.filterMap (fun it => match it with | .inI f => some f | _ => none)

/-- Collect the output file params of a row, in column order. -/
def collectOuts (items : List RowItem) : List FileParam :=
  items.filterMap (fun it => match it with | .outI f => some f | _ => none)

/-- One record of job_data. -/
structure TaskData where
  taskId : Nat
  envs : List EnvParam
  labels : List LabelParam
  inputs : List FileParam
  outputs : List FileParam
deriving DecidableEq

/-- Python truthiness of the optional task range bounds: None and 0 are
both falsy. -/
def optTruthy : Option Nat → Bool
  | none => false
  | some n => !(n == 0)

/-- A width-mismatch diagnostic: (row cell count, header column count,
line number), the data print_error interpolates. -/
abbrev WidthWarning := Nat × Nat × Nat

/-- The `for row in reader` loop of tasks_file_to_job_data.  The row at
zero-based index `idx` sits on file line `idx + 2` (the header is line
1), so its task id is `idx + 1`.  Skipping on the task range happens
before the width check and before any cell is validated.  print_error
writes to stderr and execution continues; it is modelled by the warning
list of the result (warnings recorded before an aborting error are
discarded with the whole result, as only the exception escapes). -/
def rowsLoop (env : PyEnv) (inRel outRel : Chars) (jobParams : List HeaderParam)
    (tmin tmax : Option Nat) :
    List (List Chars) → Nat → Except Err (List TaskData × List WidthWarning)
  | [], _ => .ok ([], [])
  | row :: rest, idx =>
    let taskId := idx + 1
    if optTruthy tmin && decide (taskId < tmin.getD 0) then
      rowsLoop env inRel outRel jobParams tmin tmax rest (idx + 1)
    else if optTruthy tmax && decide (taskId > tmax.getD 0) then
      rowsLoop env inRel outRel jobParams tmin tmax rest (idx + 1)
    else
      let warns : List WidthWarning :=
        if row.length == jobParams.length then []
        else [(row.length, jobParams.length, idx + 2)]
      match processRow env inRel outRel jobParams row with
      | .error e => .error e
      | .ok items =>
        match rowsLoop env inRel outRel jobParams tmin tmax rest (idx + 1) with
        | .error e => .error e
        | .ok r =>
          .ok (⟨taskId, collectEnvs items, collectLabels items,
                collectIns items, collectOuts items⟩ :: r.1, warns ++ r.2)

/-- The tasks argument of tasks_file_to_job_data: the parsed rows of
the TSV (header plus data rows; the streaming file read itself lives in
dsub_util.load_file, outside this module) and the optional task range. -/
structure TasksSpec where
  header : List Chars
  rows : List (List Chars)
  tmin : Option Nat
  tmax : Option Nat
deriving DecidableEq

/-- tasks_file_to_job_data. -/
def tasksFileToJobData (env : PyEnv) (tasks : TasksSpec) (inU outU : FPUtil) :
    Except Err (List TaskData × List WidthWarning) :=
  match parseTasksFileHeader tasks.header inU outU with
  | .error e => .error e
  | .ok (jobParams, inU2, outU2) =>
    match rowsLoop env inU2.relPath outU2.relPath jobParams tasks.tmin tasks.tmax
        tasks.rows 0 with
    | .error e => .error e
    | .ok r => if r.1 == [] then .error .noTasks else .ok r

/-- parse_pair_args with the EnvParam constructor. -/
def parsePairArgsEnv : List Chars → Except Err (List EnvParam)
  | [] => .ok []
  | a :: rest =>
    match splitPair a '=' 1 with
    | .error e => .error e
    | .ok p =>
      match mkEnvParam p.1 p.2 with
      | .error e => .error e
      | .ok e =>
        match parsePairArgsEnv rest with
        | .error e2 => .error e2
        | .ok es => .ok (e :: es)

/-- parse_pair_args with the LabelParam constructor. -/
def parsePairArgsLabel : List Chars → Except Err (List LabelParam)
  | [] => .ok []
  | a :: rest =>
    match splitPair a '=' 1 with
    | .error e => .error e
    | .ok p =>
      match mkLabelParam p.1 p.2 with
      | .error e => .error e
      | .ok l =>
        match parsePairArgsLabel rest with
        | .error e2 => .error e2
        | .ok ls => .ok (l :: ls)

/-- The file-argument loop of args_to_job_data: split each token on the
first `=` with the key side nullable, auto-name when the key is falsy,
and build the param.  The counter threads through the whole loop. -/
def fileArgsLoop (env : PyEnv) (recursive : Bool) (u : FPUtil) :
    List Chars → Except Err (List FileParam × FPUtil)
  | [] => .ok ([], u)
  | a :: rest =>
    match splitPair a '=' 0 with
    | .error e => .error e
    | .ok p =>
      let r := getVariableName u p.1
      match makeParam env r.2.relPath r.1 (p.2.getD []) recursive with
      | .error e => .error e
      | .ok f =>
        match fileArgsLoop env recursive r.2 rest with
        | .error e => .error e
        | .ok fr => .ok (f :: fr.1, fr.2)

/-- The single task produced by args_to_job_data. -/
structure ParamLists where
  envs : List EnvParam
  labels : List LabelParam
  inputs : List FileParam
  outputs : List FileParam
deriving DecidableEq

/-- args_to_job_data: envs and labels first, then the non-recursive and
recursive file lists in order, sharing one counter per role. -/
def argsToJobData (env : PyEnv) (envs labels inputs inputsRec outputs outputsRec : List Chars)
    (inU outU : FPUtil) : Except Err ParamLists :=
  match parsePairArgsEnv envs with
  | .error e => .error e
  | .ok envData =>
    match parsePairArgsLabel labels with
    | .error e => .error e
    | .ok labelData =>
      match fileArgsLoop env false inU inputs with
      | .error e => .error e
      | .ok in1 =>
        match fileArgsLoop env true in1.2 inputsRec with
        | .error e => .error e
        | .ok in2 =>
          match fileArgsLoop env false outU outputs with
          | .error e => .error e
          | .ok out1 =>
            match fileArgsLoop env true out1.2 outputsRec with
            | .error e => .error e
            | .ok out2 =>
              .ok ⟨envData, labelData, in1.1 ++ in2.1, out1.1 ++ out2.1⟩

/-- Python whitespace stripped by int(). -/
def pyIsSpace (c : Char) : Bool :=
  c == ' ' || c == '\t' || c == '\n' || c == '\r' || c == '\x0b' || c == '\x0c'

/-- Decimal digits to a number; none when empty or not all digits. -/
def digitsToNat (l : Chars) : Option Nat :=
  if !(l.isEmpty) && l.all Char.isDigit then
    some (l.foldl (fun a c => a * 10 + (c.toNat - 48)) 0)
  else none

/-- Python int(str): strip surrounding whitespace, optional sign,
nonempty digit run; None models the ValueError. -/
def pyParseInt (s : Chars) : Option Int :=
  let t := ((s.dropWhile pyIsSpace).reverse.dropWhile pyIsSpace).reverse
  match t with
  | '+' :: d => (digitsToNat d).map Int.ofNat
  | '-' :: d => (digitsToNat d).map (fun n => -(Int.ofNat n : Int))
  | d => (digitsToNat d).map Int.ofNat

/-- The unit characters of age_to_create_time. -/
def unitChars : Chars := ['s', 'm', 'h', 'd', 'w']

/-- Seconds per unit: s, m (minutes), h, d, w. -/
def unitSeconds (c : Char) : Int :=
  if c == 's' then 1
  else if c == 'm' then 60
  else if c == 'h' then 3600
  else if c == 'd' then 86400
  else 604800

/-- The days component of the normalized datetime.timedelta built from
n units of unit c: CPython normalizes the total to (days, seconds,
microseconds) with divmod, i.e. floor division. -/
def timedeltaDays (c : Char) (n : Int) : Int :=
  if c == 's' then Int.fdiv n 86400
  else if c == 'm' then Int.fdiv (60 * n) 86400
  else if c == 'h' then Int.fdiv (3600 * n) 86400
  else if c == 'd' then n
  else 7 * n

/-- Whether datetime.timedelta(<n units of c>) raises OverflowError:
CPython requires the normalized day count to have magnitude at most
999999999. -/
def timedeltaOverflow (c : Char) (n : Int) : Bool :=
  decide (timedeltaDays c n < -999999999) || decide (999999999 < timedeltaDays c n)

/-- Whether a datetime of t epoch seconds is out of range:
datetime.min is 0001-01-01T00:00:00 (epoch second -62135596800) and
datetime.max is 9999-12-31T23:59:59.999999 (last whole epoch second
253402300799); datetime minus timedelta raises OverflowError when the
result falls outside this range. -/
def datetimeOverflow (t : Int) : Bool :=
  decide (t < -62135596800) || decide (253402300799 < t)

/-- age_to_create_time with the reference time given as integer epoch
seconds.  The timedelta construction and the subtraction from_time -
interval can each raise OverflowError, which the except clause catches
and re-raises as the invalid-age ValueError; the remaining steps
(start - epoch, int of total_seconds) are exact for in-range integer
datetimes and raise nothing. -/
def ageToCreateTime (age : Chars) (fromTime : Int) : Except Err (Option Int) :=
  if age == [] then .ok none
  else
    match age.getLast? with
    | none => .ok none
    | some lastChar =>
      if unitChars.contains lastChar then
        match pyParseInt age.dropLast with
        | some n =>
          if timedeltaOverflow lastChar n then .error .invalidAge
          else if datetimeOverflow (fromTime - n * unitSeconds lastChar) then
            .error .invalidAge
          else .ok (some (fromTime - n * unitSeconds lastChar))
        | none => .error .invalidAge
      else
        match pyParseInt age with
        | some n => .ok (some n)
        | none => .error .invalidAge

/-- Whether an Except value is an error. -/
def exceptErr {α : Type} : Except Err α → Bool
  | .error _ => true
  | .ok _ => false

/-- Whether the row loop keeps the row with the given task id: neither
of the two skip conditions fires. -/
def keepTask (tmin tmax : Option Nat) (taskId : Nat) : Bool :=
  !(optTruthy tmin && decide (taskId < tmin.getD 0)) &&
  !(optTruthy tmax && decide (taskId > tmax.getD 0))

/-- Decidable equality for Except values, so that concrete runs of the
embedded functions can be checked by decide. -/
instance {e a : Type} [DecidableEq e] [DecidableEq a] : DecidableEq (Except e a) := fun x y =>
  match x, y with
  | .error e1, .error e2 =>
    if h : e1 = e2 then .isTrue (by rw [h]) else .isFalse (fun hc => h (by cases hc; rfl))
  | .ok a1, .ok a2 =>
    if h : a1 = a2 then .isTrue (by rw [h]) else .isFalse (fun hc => h (by cases hc; rfl))
  | .error e1, .ok a2 => .isFalse (fun hc => by cases hc)
  | .ok a1, .error e2 => .isFalse (fun hc => by cases hc)

/-- Modelled from the spec claim wording for C6: a scheme token of 1 to
30 characters drawn from letters, digits, `+`, `.`, `-` (the claim puts
no constraint on the first character). -/
def claimSchemeTok (tok : Chars) : Bool :=
  decide (1 ≤ tok.length) && decide (tok.length ≤ 30) && tok.all schemeChar

/-- The scheme token as the regex actually requires it: the first
character must be an ASCII letter, followed by up to 29 characters of
the scheme class. -/
def schemeTokOk (tok : Chars) : Bool :=
  match tok with
  | [] => false
  | c :: rest => c.isAlpha && rest.all schemeChar && decide (rest.length ≤ 29)

/-- Whether the directory head of a uri (everything up to and including
the last slash) ends in exactly one slash, so that stripping its
trailing slashes and appending one reproduces it.  This is precisely
the condition under which UriParts reconstruction is lossless. -/
def goodSlash (u : Chars) : Bool :=
  rstripSlash (posixSplitRaw u).1 ++ ['/'] == (posixSplitRaw u).1

/-- Whether the string contains the three-character substring `/..`
(used as an invariant of the docker-path rewrite chain). -/
def hasSlashDD : Chars → Bool
  | [] => false
  | c :: rest => (c == '/' && startsW ['.', '.'] rest) || hasSlashDD rest

/-! Theorems. -/

theorem pyParseInt_nil : pyParseInt [] = none := rfl

theorem getLast?_eq_none_iff {α : Type} {l : List α} : l.getLast? = none ↔ l = [] := by
  induction l with
  | nil => simp
  | cons a t ih =>
    cases t with
    | nil => simp [List.getLast?]
    | cons b u => simp_all [List.getLast?_cons_cons]

/-- Claim C5: the path policy check on a candidate URI split into
(directory, filename) fails if and only if: a square bracket occurs
anywhere; a question mark occurs anywhere; a star occurs in the
directory portion; a double star occurs in the filename; the filename
equals `.` or `..`; or the reference is non-recursive with an empty
filename.  A URI exhibiting none of these passes the check. -/
theorem c5_path_policy_iff (uri : Chars) (recursive : Bool) :
    exceptErr (validatePathsOrFail uri recursive) = true ↔
      (uri.contains '[' = true ∨ uri.contains ']' = true ∨
       uri.contains '?' = true ∨
       (posixSplit uri).1.contains '*' = true ∨
       hasSub ['*', '*'] (posixSplit uri).2 = true ∨
       (posixSplit uri).2 = ['.', '.'] ∨ (posixSplit uri).2 = ['.'] ∨
       (recursive = false ∧ (posixSplit uri).2 = [])) := by
  cases recursive <;>
    · unfold validatePathsOrFail
      split_ifs <;> simp_all [exceptErr] <;> tauto

/-- Claim C9 (amended): age parsing.  An empty spec yields none; a
spec that Python's int() accepts and whose last character is not a
unit yields that integer as absolute epoch seconds; an integer
followed by a unit in s, m, h, d, w yields the reference time minus
that interval (in seconds) provided neither datetime operation
overflows - the interval's normalized day count stays within
timedelta's 999999999-day magnitude limit and the resulting time stays
within datetime.min..datetime.max - while an overflowing interval is
caught and re-raised as the invalid-age error, exactly like an
unparsable integer or unrecognized unit. -/
theorem c9_age_parsing :
    (∀ t : Int, ageToCreateTime [] t = .ok none) ∧
    (∀ (s : Chars) (n : Int) (t : Int),
       pyParseInt s = some n →
       (∀ c, s.getLast? = some c → unitChars.contains c = false) →
       ageToCreateTime s t = .ok (some n)) ∧
    (∀ (body : Chars) (u : Char) (n : Int) (t : Int),
       unitChars.contains u = true →
       pyParseInt body = some n →
       timedeltaOverflow u n = false →
       datetimeOverflow (t - n * unitSeconds u) = false →
       ageToCreateTime (body ++ [u]) t = .ok (some (t - n * unitSeconds u))) ∧
    (∀ (body : Chars) (u : Char) (n : Int) (t : Int),
       unitChars.contains u = true →
       pyParseInt body = some n →
       (timedeltaOverflow u n || datetimeOverflow (t - n * unitSeconds u)) = true →
       ageToCreateTime (body ++ [u]) t = .error .invalidAge) ∧
    (∀ (s : Chars) (t : Int) (c : Char),
       s.getLast? = some c → unitChars.contains c = true →
       pyParseInt s.dropLast = none →
       ageToCreateTime s t = .error .invalidAge) ∧
    (∀ (s : Chars) (t : Int) (c : Char),
       s.getLast? = some c → unitChars.contains c = false →
       pyParseInt s = none →
       ageToCreateTime s t = .error .invalidAge) := by
  refine ⟨fun t => rfl, ?_, ?_, ?_, ?_, ?_⟩
  · intro s n t hp hu
    cases hs : s.getLast? with
    | none =>
      rw [getLast?_eq_none_iff.mp hs] at hp
      rw [pyParseInt_nil] at hp
      exact absurd hp (by simp)
    | some c =>
      have hne : s ≠ [] := by
        intro h; rw [h] at hs; simp at hs
      have hcu : c ∉ unitChars := by simpa using hu c hs
      unfold ageToCreateTime
      rw [if_neg (by simpa using hne), hs]
      simp [hcu, hp]
  · intro body u n t hu hp h1 h2
    have hum : u ∈ unitChars := by simpa using hu
    unfold ageToCreateTime
    rw [if_neg (by simp), List.getLast?_concat, List.dropLast_concat]
    simp [hum, hp, h1, h2]
  · intro body u n t hu hp hov
    have hum : u ∈ unitChars := by simpa using hu
    unfold ageToCreateTime
    rw [if_neg (by simp), List.getLast?_concat, List.dropLast_concat]
    simp only [Bool.or_eq_true] at hov
    rcases hov with h1 | h2
    · simp [hum, hp, h1]
    · cases hb : timedeltaOverflow u n <;> simp [hum, hp, hb, h2]
  · intro s t c hs hu hp
    have hne : s ≠ [] := by
      intro h; rw [h] at hs; simp at hs
    have hum : c ∈ unitChars := by simpa using hu
    unfold ageToCreateTime
    rw [if_neg (by simpa using hne), hs]
    simp [hum, hp]
  · intro s t c hs hu hp
    have hne : s ≠ [] := by
      intro h; rw [h] at hs; simp at hs
    have hum : c ∉ unitChars := by simpa using hu
    unfold ageToCreateTime
    rw [if_neg (by simpa using hne), hs]
    simp [hum, hp]

/-- Claim C9 counterexample: the claim as stated predicts that every
well-formed `<integer><unit>` spec yields referenceTime minus the
interval, but `106000w` at reference time 0 (the epoch) fails with the
invalid-age error: 0 minus 106000 weeks falls before datetime.min
(year 1), and the OverflowError of the datetime subtraction is caught
and re-raised as the invalid-age ValueError. -/
theorem c9_age_parsing_cex :
    unitChars.contains 'w' = true ∧
    pyParseInt ['1', '0', '6', '0', '0', '0'] = some 106000 ∧
    ageToCreateTime (['1', '0', '6', '0', '0', '0'] ++ ['w']) 0 = .error .invalidAge ∧
    ageToCreateTime (['1', '0', '6', '0', '0', '0'] ++ ['w']) 0 ≠
      .ok (some (0 - 106000 * unitSeconds 'w')) := by
  decide

/-- Claim C9 witness at the spec's own examples, plus a timedelta
overflow: three billion days exceed timedelta's day-count limit. -/
theorem c9_age_parsing_witness :
    ageToCreateTime [] 10000 = .ok none ∧
    ageToCreateTime ['1', '0'] 10000 = .ok (some 10) ∧
    ageToCreateTime ['1', 'h'] 10000 = .ok (some 6400) ∧
    ageToCreateTime (['3', '0', '0', '0', '0', '0', '0', '0', '0', '0'] ++ ['d']) 0 =
      .error .invalidAge ∧
    ageToCreateTime ['b', 'o', 'g', 'u', 's'] 10000 = .error .invalidAge := by
  refine ⟨c9_age_parsing.1 10000, ?_, ?_, ?_, ?_⟩
  · exact c9_age_parsing.2.1 ['1', '0'] 10 10000 (by decide)
      (fun c hc => by simp at hc; rw [← hc]; decide)
  · have h := c9_age_parsing.2.2.1 ['1'] 'h' 1 10000 (by decide) (by decide)
      (by decide) (by decide)
    simpa using h
  · exact c9_age_parsing.2.2.2.1 ['3', '0', '0', '0', '0', '0', '0', '0', '0', '0'] 'd'
      3000000000 0 (by decide) (by decide) (by decide)
  · exact c9_age_parsing.2.2.2.2.1 ['b', 'o', 'g', 'u', 's'] 10000 's'
      (by decide) (by decide) (by decide)

theorem rowsLoop_tmin_zero (env : PyEnv) (inRel outRel : Chars)
    (ps : List HeaderParam) (tmax : Option Nat) (rows : List (List Chars)) (idx : Nat) :
    rowsLoop env inRel outRel ps (some 0) tmax rows idx =
      rowsLoop env inRel outRel ps none tmax rows idx := by
  induction rows generalizing idx with
  | nil => rfl
  | cons row rest ih =>
    simp only [rowsLoop, optTruthy, ih]
    simp

theorem rowsLoop_tmax_zero (env : PyEnv) (inRel outRel : Chars)
    (ps : List HeaderParam) (tmin : Option Nat) (rows : List (List Chars)) (idx : Nat) :
    rowsLoop env inRel outRel ps tmin (some 0) rows idx =
      rowsLoop env inRel outRel ps tmin none rows idx := by
  induction rows generalizing idx with
  | nil => rfl
  | cons row rest ih =>
    simp only [rowsLoop, optTruthy, ih]
    simp

theorem rowsLoop_tmin_one (env : PyEnv) (inRel outRel : Chars)
    (ps : List HeaderParam) (tmax : Option Nat) (rows : List (List Chars)) (idx : Nat) :
    rowsLoop env inRel outRel ps (some 1) tmax rows idx =
      rowsLoop env inRel outRel ps none tmax rows idx := by
  induction rows generalizing idx with
  | nil => rfl
  | cons row rest ih =>
    simp only [rowsLoop, optTruthy, ih]
    simp

/-- Claim C10: a task-range bound equal to 0 disables filtering on that
side, exactly like an absent bound; in particular a filter of [1, 0]
excludes nothing (it compiles identically to no filter at all). -/
theorem c10_zero_bound_disables_filter (env : PyEnv) (header : List Chars)
    (rows : List (List Chars)) (inU outU : FPUtil) :
    (∀ tmax, tasksFileToJobData env ⟨header, rows, some 0, tmax⟩ inU outU =
       tasksFileToJobData env ⟨header, rows, none, tmax⟩ inU outU) ∧
    (∀ tmin, tasksFileToJobData env ⟨header, rows, tmin, some 0⟩ inU outU =
       tasksFileToJobData env ⟨header, rows, tmin, none⟩ inU outU) ∧
    tasksFileToJobData env ⟨header, rows, some 1, some 0⟩ inU outU =
      tasksFileToJobData env ⟨header, rows, none, none⟩ inU outU := by
  refine ⟨?_, ?_, ?_⟩
  · intro tmax
    simp only [tasksFileToJobData, rowsLoop_tmin_zero]
  · intro tmin
    simp only [tasksFileToJobData, rowsLoop_tmax_zero]
  · simp only [tasksFileToJobData, rowsLoop_tmax_zero, rowsLoop_tmin_one]

theorem rangeMapShift (len idx : Nat) :
    (List.map (fun i => i + 1) (List.range len)).map (fun i => i + idx + 1) =
      (List.range len).map (fun i => i + (idx + 1) + 1) := by
  rw [List.map_map]
  apply List.map_congr_left
  intro i _
  simp only [Function.comp_apply]
  omega

theorem rowsLoop_taskIds (env : PyEnv) (inRel outRel : Chars) (ps : List HeaderParam)
    (a b : Nat) (ha : a ≠ 0) (hb : b ≠ 0) :
    ∀ (rows : List (List Chars)) (idx : Nat) (data : List TaskData)
      (warns : List WidthWarning),
    rowsLoop env inRel outRel ps (some a) (some b) rows idx = .ok (data, warns) →
    data.map (fun t => t.taskId) =
      ((List.range rows.length).map (fun i => i + idx + 1)).filter
        (fun n => decide (a ≤ n) && decide (n ≤ b)) := by
  intro rows
  induction rows with
  | nil =>
    intro idx data warns h
    simp only [rowsLoop] at h
    cases h
    simp
  | cons row rest ih =>
    intro idx data warns h
    simp only [rowsLoop] at h
    by_cases h1 : idx + 1 < a
    · rw [if_pos (by simp [optTruthy, ha, h1])] at h
      have hr := ih (idx + 1) data warns h
      rw [hr, List.length_cons, List.range_succ_eq_map, List.map_cons,
        List.filter_cons, rangeMapShift]
      have hna : ¬ (a ≤ idx + 1) := by omega
      simp [hna]
    · rw [if_neg (by simp [optTruthy, ha, h1])] at h
      by_cases h2 : idx + 1 > b
      · rw [if_pos (by simp [optTruthy, hb, h2])] at h
        have hr := ih (idx + 1) data warns h
        rw [hr, List.length_cons, List.range_succ_eq_map, List.map_cons,
          List.filter_cons, rangeMapShift]
        have hnb : ¬ (idx + 1 ≤ b) := by omega
        simp [hnb]
      · rw [if_neg (by simp [optTruthy, hb, h2])] at h
        cases hp : processRow env inRel outRel ps row with
        | error e => rw [hp] at h; cases h
        | ok items =>
          rw [hp] at h
          cases hrec : rowsLoop env inRel outRel ps (some a) (some b) rest (idx + 1) with
          | error e => rw [hrec] at h; cases h
          | ok r =>
            rw [hrec] at h
            cases h
            have hr := ih (idx + 1) r.1 r.2 (by rw [hrec])
            simp only [List.length_cons, List.range_succ_eq_map, List.map_cons,
              List.filter_cons]
            rw [rangeMapShift]
            have hka : a ≤ idx + 1 := by omega
            have hkb : idx + 1 ≤ b := by omega
            simp [hka, hkb, hr]

theorem rowsLoop_congr_outside (env : PyEnv) (inRel outRel : Chars)
    (ps : List HeaderParam) (a b : Nat) (ha : a ≠ 0) (hb : b ≠ 0) :
    ∀ (rows rows2 : List (List Chars)) (idx : Nat),
    rows.length = rows2.length →
    (∀ i, i < rows.length → a ≤ idx + i + 1 → idx + i + 1 ≤ b → rows[i]? = rows2[i]?) →
    rowsLoop env inRel outRel ps (some a) (some b) rows idx =
      rowsLoop env inRel outRel ps (some a) (some b) rows2 idx := by
  intro rows
  induction rows with
  | nil =>
    intro rows2 idx hlen _
    cases rows2 with
    | nil => rfl
    | cons r2 rest2 => simp at hlen
  | cons row rest ih =>
    intro rows2 idx hlen hsame
    cases rows2 with
    | nil => simp at hlen
    | cons row2 rest2 =>
      have hlen2 : rest.length = rest2.length := by simpa using hlen
      have hrest : ∀ i, i < rest.length → a ≤ (idx + 1) + i + 1 →
          (idx + 1) + i + 1 ≤ b → rest[i]? = rest2[i]? := by
        intro i hi hla hlb
        have := hsame (i + 1) (by simpa using Nat.succ_lt_succ hi)
          (by omega) (by omega)
        simpa using this
      simp only [rowsLoop]
      by_cases h1 : idx + 1 < a
      · have hc1 : (optTruthy (some a) &&
            decide (idx + 1 < (some a : Option Nat).getD 0)) = true := by
          simp [optTruthy, ha, h1]
        rw [if_pos hc1, if_pos hc1]
        exact ih rest2 (idx + 1) hlen2 hrest
      · have hc1 : ¬ (optTruthy (some a) &&
            decide (idx + 1 < (some a : Option Nat).getD 0)) = true := by
          simp [optTruthy, ha, h1]
        rw [if_neg hc1, if_neg hc1]
        by_cases h2 : idx + 1 > b
        · have hc2 : (optTruthy (some b) &&
              decide (idx + 1 > (some b : Option Nat).getD 0)) = true := by
            simp [optTruthy, hb, h2]
          rw [if_pos hc2, if_pos hc2]
          exact ih rest2 (idx + 1) hlen2 hrest
        · have hc2 : ¬ (optTruthy (some b) &&
              decide (idx + 1 > (some b : Option Nat).getD 0)) = true := by
            simp [optTruthy, hb, h2]
          rw [if_neg hc2, if_neg hc2]
          have h0 : row = row2 := by
            have := hsame 0 (by simp) (by omega) (by omega)
            simpa using this
          rw [h0, ih rest2 (idx + 1) hlen2 hrest]

/-- Claim C4: tasks are numbered from 1 in row order (the first data
row, on file line 2, gets task id 1); with a [min,max] filter of two
nonzero bounds, exactly the rows whose task number n satisfies
min ≤ n ≤ max (both ends inclusive) are materialized, and rows outside
the range are skipped before any cell validation or file-parameter
construction runs on them: compilation does not depend on the content
of the skipped rows at all. -/
theorem c4_task_numbering_and_filter (env : PyEnv) (header : List Chars)
    (rows : List (List Chars)) (inU outU : FPUtil) (a b : Nat)
    (ha : a ≠ 0) (hb : b ≠ 0) :
    (∀ data warns,
       tasksFileToJobData env ⟨header, rows, some a, some b⟩ inU outU = .ok (data, warns) →
       data.map (fun t => t.taskId) =
         ((List.range rows.length).map (fun i => i + 1)).filter
           (fun n => decide (a ≤ n) && decide (n ≤ b))) ∧
    (∀ rows2, rows.length = rows2.length →
       (∀ i, i < rows.length → a ≤ i + 1 → i + 1 ≤ b → rows[i]? = rows2[i]?) →
       tasksFileToJobData env ⟨header, rows, some a, some b⟩ inU outU =
         tasksFileToJobData env ⟨header, rows2, some a, some b⟩ inU outU) := by
  constructor
  · intro data warns h
    unfold tasksFileToJobData at h
    cases hh : parseTasksFileHeader header inU outU with
    | error e => rw [hh] at h; cases h
    | ok hp =>
      obtain ⟨ps0, iU2, oU2⟩ := hp
      rw [hh] at h
      dsimp only at h
      cases hl : rowsLoop env iU2.relPath oU2.relPath ps0 (some a) (some b) rows 0 with
      | error e => rw [hl] at h; cases h
      | ok r =>
        rw [hl] at h
        dsimp only at h
        by_cases hempty : r.1 == []
        · rw [if_pos hempty] at h; cases h
        · rw [if_neg hempty] at h
          cases h
          have := rowsLoop_taskIds env iU2.relPath oU2.relPath ps0 a b ha hb
            rows 0 data warns hl
          simpa using this
  · intro rows2 hlen hsame
    unfold tasksFileToJobData
    cases hh : parseTasksFileHeader header inU outU with
    | error e => rfl
    | ok hp =>
      obtain ⟨ps0, iU2, oU2⟩ := hp
      dsimp only
      rw [rowsLoop_congr_outside env iU2.relPath oU2.relPath ps0 a b ha hb
        rows rows2 0 hlen (by intro i hi hla hlb; exact hsame i hi (by omega) (by omega))]

/-- Claim C4 witness: filter [2,2] over three rows, where rows 1 and 3
are garbage that would abort compilation if validated (row 1 is too
short for the header, row 3 has an invalid uri cell); only task 2 is
materialized and their content is irrelevant. -/
theorem c4_task_numbering_and_filter_witness :
    (tasksFileToJobData ⟨['/', 'h'], ['/', 'w']⟩
        ⟨[['A'], ['-', '-', 'i', 'n', 'p', 'u', 't', ' ', 'I', 'N']],
         [[], [['x'], ['g', 's', ':', '/', '/', 'b', '/', 'f']], [['y'], ['?', '?']]],
         some 2, some 2⟩
        ⟨autoPrefInput, 0, ['i', 'n']⟩ ⟨autoPrefOutput, 0, ['o', 'u', 't']⟩ =
      tasksFileToJobData ⟨['/', 'h'], ['/', 'w']⟩
        ⟨[['A'], ['-', '-', 'i', 'n', 'p', 'u', 't', ' ', 'I', 'N']],
         [[['q']], [['x'], ['g', 's', ':', '/', '/', 'b', '/', 'f']], [['r'], ['[']]],
         some 2, some 2⟩
        ⟨autoPrefInput, 0, ['i', 'n']⟩ ⟨autoPrefOutput, 0, ['o', 'u', 't']⟩) ∧
    (∀ data warns,
       tasksFileToJobData ⟨['/', 'h'], ['/', 'w']⟩
           ⟨[['A'], ['-', '-', 'i', 'n', 'p', 'u', 't', ' ', 'I', 'N']],
            [[], [['x'], ['g', 's', ':', '/', '/', 'b', '/', 'f']], [['y'], ['?', '?']]],
            some 2, some 2⟩
           ⟨autoPrefInput, 0, ['i', 'n']⟩ ⟨autoPrefOutput, 0, ['o', 'u', 't']⟩ =
         .ok (data, warns) →
       data.map (fun t => t.taskId) = [2]) := by
  constructor
  · exact (c4_task_numbering_and_filter ⟨['/', 'h'], ['/', 'w']⟩
      [['A'], ['-', '-', 'i', 'n', 'p', 'u', 't', ' ', 'I', 'N']]
      [[], [['x'], ['g', 's', ':', '/', '/', 'b', '/', 'f']], [['y'], ['?', '?']]]
      ⟨autoPrefInput, 0, ['i', 'n']⟩ ⟨autoPrefOutput, 0, ['o', 'u', 't']⟩ 2 2
      (by decide) (by decide)).2
      [[['q']], [['x'], ['g', 's', ':', '/', '/', 'b', '/', 'f']], [['r'], ['[']]]
      (by decide)
      (by
        intro i hi hla hlb
        have hup : i ≤ 1 := by omega
        have hlo : 1 ≤ i := by omega
        interval_cases i
        rfl)
  · intro data warns h
    have := (c4_task_numbering_and_filter ⟨['/', 'h'], ['/', 'w']⟩
      [['A'], ['-', '-', 'i', 'n', 'p', 'u', 't', ' ', 'I', 'N']]
      [[], [['x'], ['g', 's', ':', '/', '/', 'b', '/', 'f']], [['y'], ['?', '?']]]
      ⟨autoPrefInput, 0, ['i', 'n']⟩ ⟨autoPrefOutput, 0, ['o', 'u', 't']⟩ 2 2
      (by decide) (by decide)).1 data warns h
    rw [this]
    decide

theorem checkLabelRule_err (v : Chars) (e : Err) :
    checkLabelRule v = .error e → e = .invalidLabel := by
  unfold checkLabelRule
  split_ifs <;> intro h <;> cases h <;> rfl

theorem mkEnvParam_err (n v : Option Chars) (e : Err) :
    mkEnvParam n v = .error e → e = .typeError ∨ e = .invalidName := by
  unfold mkEnvParam
  cases n with
  | none => intro h; cases h; exact Or.inl rfl
  | some nm =>
    dsimp only
    split_ifs <;> intro h
    · cases h
    · cases h; exact Or.inr rfl

theorem mkLabelParam_err (n v : Option Chars) (e : Err) :
    mkLabelParam n v = .error e →
      e = .typeError ∨ e = .invalidLabel := by
  unfold mkLabelParam
  cases n with
  | none => intro h; cases h; exact Or.inl rfl
  | some nm =>
    dsimp only
    cases hc : checkLabelRule nm with
    | error e2 =>
      dsimp only
      intro h; cases h
      exact Or.inr (checkLabelRule_err nm _ hc)
    | ok u =>
      cases v with
      | none =>
        dsimp only
        split_ifs <;> intro h <;> cases h
        exact Or.inr rfl
      | some vv =>
        dsimp only
        by_cases hv : (vv == []) = true
        · rw [if_pos hv]
          dsimp only
          split_ifs <;> intro h <;> cases h
          exact Or.inr rfl
        · rw [if_neg hv]
          cases hcv : checkLabelRule vv with
          | error e3 =>
            dsimp only
            intro h; cases h
            exact Or.inr (checkLabelRule_err vv _ hcv)
          | ok u2 =>
            dsimp only
            split_ifs <;> intro h <;> cases h
            exact Or.inr rfl

theorem providerOf_err (pre : Chars) (e : Err) :
    providerOf pre = .error e → e = .unsupportedProvider := by
  unfold providerOf
  split_ifs <;> intro h <;> cases h <;> rfl

theorem parseFileProvider_err (u : Chars) (e : Err) :
    parseFileProvider u = .error e → e = .unsupportedProvider := by
  unfold parseFileProvider
  cases matchScheme u with
  | none => exact providerOf_err fileS e
  | some tok => exact providerOf_err (tok.map Char.toLower) e

theorem validatePathsOrFail_err (u : Chars) (r : Bool) (e : Err) :
    validatePathsOrFail u r = .error e → e = .unsupportedPath := by
  unfold validatePathsOrFail
  split_ifs <;> intro h <;> cases h <;> rfl

theorem parseUri_err (env : PyEnv) (relPath rawUri : Chars) (recursive : Bool) (e : Err) :
    parseUri env relPath rawUri recursive = .error e →
      e = .unsupportedProvider ∨ e = .unsupportedPath := by
  unfold parseUri
  cases hf : parseFileProvider (recUri recursive rawUri) with
  | error e2 =>
    dsimp only
    intro h; cases h
    exact Or.inl (parseFileProvider_err _ _ hf)
  | ok fp =>
    dsimp only
    cases hv : validatePathsOrFail (recUri recursive rawUri) recursive with
    | error e3 =>
      dsimp only
      intro h; cases h
      exact Or.inr (validatePathsOrFail_err _ _ _ hv)
    | ok u => dsimp only; intro h; cases h

theorem makeParam_err (env : PyEnv) (relPath name rawUri : Chars) (recursive : Bool)
    (e : Err) :
    makeParam env relPath name rawUri recursive = .error e →
      e = .unsupportedProvider ∨ e = .unsupportedPath ∨ e = .invalidName := by
  unfold makeParam
  cases hp : parseUri env relPath rawUri recursive with
  | error e2 =>
    dsimp only
    intro h; cases h
    rcases parseUri_err env relPath rawUri recursive _ hp with h1 | h2
    · exact Or.inl h1
    · exact Or.inr (Or.inl h2)
  | ok r =>
    obtain ⟨d, parts, fp⟩ := r
    dsimp only
    split_ifs <;> intro h <;> cases h
    exact Or.inr (Or.inr rfl)

theorem buildRowItem_ne_indexError (env : PyEnv) (inRel outRel : Chars)
    (p : HeaderParam) (cell : Chars) :
    buildRowItem env inRel outRel p cell ≠ .error .indexError := by
  cases p with
  | envH nm =>
    simp only [buildRowItem]
    cases he : mkEnvParam (some nm) (some cell) with
    | error e =>
      intro h; cases h
      rcases mkEnvParam_err (some nm) (some cell) _ he with h1 | h1 <;> cases h1
    | ok _ => intro h; cases h
  | labelH nm =>
    simp only [buildRowItem]
    cases he : mkLabelParam (some nm) (some cell) with
    | error e =>
      intro h; cases h
      rcases mkLabelParam_err (some nm) (some cell) _ he with h1 | h1 <;> cases h1
    | ok _ => intro h; cases h
  | inputH nm rec =>
    simp only [buildRowItem]
    cases he : makeParam env inRel nm cell rec with
    | error e =>
      intro h; cases h
      rcases makeParam_err env inRel nm cell rec _ he with h1 | h1 | h1 <;> cases h1
    | ok _ => intro h; cases h
  | outputH nm rec =>
    simp only [buildRowItem]
    cases he : makeParam env outRel nm cell rec with
    | error e =>
      intro h; cases h
      rcases makeParam_err env outRel nm cell rec _ he with h1 | h1 | h1 <;> cases h1
    | ok _ => intro h; cases h

theorem processRow_take (env : PyEnv) (inRel outRel : Chars) :
    ∀ (ps : List HeaderParam) (row : List Chars), ps.length ≤ row.length →
    processRow env inRel outRel ps row =
      processRow env inRel outRel ps (row.take ps.length) := by
  intro ps
  induction ps with
  | nil => intro row _; rfl
  | cons p ps ih =>
    intro row hlen
    cases row with
    | nil => simp at hlen
    | cons cell cells =>
      simp only [List.length_cons, List.take_succ_cons, processRow]
      rw [ih cells (by simpa using hlen)]

theorem processRow_short (env : PyEnv) (inRel outRel : Chars) :
    ∀ (ps : List HeaderParam) (row : List Chars), row.length < ps.length →
    ∃ e, processRow env inRel outRel ps row = .error e := by
  intro ps
  induction ps with
  | nil => intro row h; simp at h
  | cons p ps ih =>
    intro row hlen
    cases row with
    | nil => exact ⟨.indexError, rfl⟩
    | cons cell cells =>
      simp only [processRow]
      cases hb : buildRowItem env inRel outRel p cell with
      | error e => exact ⟨e, rfl⟩
      | ok it =>
        obtain ⟨e, he⟩ := ih cells (by simpa using hlen)
        rw [he]
        exact ⟨e, rfl⟩

theorem processRow_ne_indexError (env : PyEnv) (inRel outRel : Chars) :
    ∀ (ps : List HeaderParam) (row : List Chars), ps.length ≤ row.length →
    processRow env inRel outRel ps row ≠ .error .indexError := by
  intro ps
  induction ps with
  | nil => intro row _ h; cases h
  | cons p ps ih =>
    intro row hlen
    cases row with
    | nil => simp at hlen
    | cons cell cells =>
      simp only [processRow]
      cases hb : buildRowItem env inRel outRel p cell with
      | error e =>
        intro h; cases h
        exact buildRowItem_ne_indexError env inRel outRel p cell hb
      | ok it =>
        cases hr : processRow env inRel outRel ps cells with
        | error e =>
          intro h; cases h
          exact ih cells (by simpa using hlen) hr
        | ok rest => intro h; cases h

theorem parseHeaderColWith_ne_indexError (inU outU : FPUtil) (colType : Chars)
    (colValue : Option Chars) :
    parseHeaderColWith inU outU colType colValue ≠ .error .indexError := by
  unfold parseHeaderColWith
  dsimp only
  split_ifs <;> intro h
  · revert h
    cases he : mkEnvParam colValue none with
    | error e =>
      dsimp only
      intro h; cases h
      rcases mkEnvParam_err _ _ _ he with h1 | h1 <;> cases h1
    | ok _ => dsimp only; intro h; cases h
  · revert h
    cases he : mkLabelParam colValue none with
    | error e =>
      dsimp only
      intro h; cases h
      rcases mkLabelParam_err _ _ _ he with h1 | h1 <;> cases h1
    | ok _ => dsimp only; intro h; cases h
  · cases h
  · cases h
  · cases h
  · cases h
  · cases h

theorem parseHeaderCol_ne_indexError (inU outU : FPUtil) (col : Chars) :
    parseHeaderCol inU outU col ≠ .error .indexError :=
  parseHeaderColWith_ne_indexError inU outU _ _

theorem parseTasksFileHeader_ne_indexError :
    ∀ (header : List Chars) (inU outU : FPUtil),
    parseTasksFileHeader header inU outU ≠ .error .indexError := by
  intro header
  induction header with
  | nil => intro inU outU h; cases h
  | cons col rest ih =>
    intro inU outU
    simp only [parseTasksFileHeader]
    cases hc : parseHeaderCol inU outU col with
    | error e =>
      intro h; cases h
      exact parseHeaderCol_ne_indexError inU outU col hc
    | ok r =>
      obtain ⟨p, inU2, outU2⟩ := r
      dsimp only
      cases hr : parseTasksFileHeader rest inU2 outU2 with
      | error e =>
        dsimp only
        intro h; cases h
        exact ih inU2 outU2 hr
      | ok r2 =>
        obtain ⟨ps, inU3, outU3⟩ := r2
        dsimp only
        intro h; cases h

theorem rowsLoop_ne_indexError (env : PyEnv) (inRel outRel : Chars)
    (ps : List HeaderParam) (tmin tmax : Option Nat) :
    ∀ (rows : List (List Chars)) (idx : Nat),
    (∀ i row, rows[i]? = some row → keepTask tmin tmax (idx + i + 1) = true →
       ps.length ≤ row.length) →
    rowsLoop env inRel outRel ps tmin tmax rows idx ≠ .error .indexError := by
  intro rows
  induction rows with
  | nil => intro idx _ h; cases h
  | cons row rest ih =>
    intro idx hlen
    have hrest : ∀ i row2, rest[i]? = some row2 →
        keepTask tmin tmax ((idx + 1) + i + 1) = true → ps.length ≤ row2.length := by
      intro i row2 hi hk
      have := hlen (i + 1) row2 (by simpa using hi)
      apply this
      have harith : idx + (i + 1) + 1 = (idx + 1) + i + 1 := by omega
      rw [harith]
      exact hk
    simp only [rowsLoop]
    by_cases hc1 : (optTruthy tmin && decide (idx + 1 < tmin.getD 0)) = true
    · rw [if_pos hc1]
      exact ih (idx + 1) hrest
    · rw [if_neg hc1]
      by_cases hc2 : (optTruthy tmax && decide (idx + 1 > tmax.getD 0)) = true
      · rw [if_pos hc2]
        exact ih (idx + 1) hrest
      · rw [if_neg hc2]
        have hk : keepTask tmin tmax (idx + 0 + 1) = true := by
          unfold keepTask
          simp only [Bool.and_eq_true, Bool.not_eq_true']
          constructor
          · exact Bool.not_eq_true _ ▸ (by simpa using hc1)
          · exact (by simpa using hc2)
        have hrow := hlen 0 row (by simp) hk
        cases hp : processRow env inRel outRel ps row with
        | error e =>
          intro h; cases h
          exact processRow_ne_indexError env inRel outRel ps row hrow hp
        | ok items =>
          cases hr : rowsLoop env inRel outRel ps tmin tmax rest (idx + 1) with
          | error e =>
            intro h; cases h
            exact ih (idx + 1) hrest hr
          | ok r => intro h; cases h

theorem rowsLoop_warns (env : PyEnv) (inRel outRel : Chars)
    (ps : List HeaderParam) (tmin tmax : Option Nat) :
    ∀ (rows : List (List Chars)) (idx : Nat) (data : List TaskData)
      (warns : List WidthWarning),
    rowsLoop env inRel outRel ps tmin tmax rows idx = .ok (data, warns) →
    ∀ i row, rows[i]? = some row → keepTask tmin tmax (idx + i + 1) = true →
      row.length ≠ ps.length → (row.length, ps.length, idx + i + 2) ∈ warns := by
  intro rows
  induction rows with
  | nil => intro idx data warns _ i row hi; simp at hi
  | cons row0 rest ih =>
    intro idx data warns h i row hi hk hne
    simp only [rowsLoop] at h
    by_cases hc1 : (optTruthy tmin && decide (idx + 1 < tmin.getD 0)) = true
    · rw [if_pos hc1] at h
      cases i with
      | zero =>
        simp at hi
        exfalso
        unfold keepTask at hk
        simp only [Bool.and_eq_true, Bool.not_eq_true'] at hk
        rw [Nat.add_zero] at hk
        exact absurd hc1 (by simp [hk.1])
      | succ j =>
        have := ih (idx + 1) data warns h j row (by simpa using hi)
          (by have harith : (idx + 1) + j + 1 = idx + (j + 1) + 1 := by omega
              rw [harith]; exact hk) hne
        have harith : (idx + 1) + j + 2 = idx + (j + 1) + 2 := by omega
        rw [harith] at this
        exact this
    · rw [if_neg hc1] at h
      by_cases hc2 : (optTruthy tmax && decide (idx + 1 > tmax.getD 0)) = true
      · rw [if_pos hc2] at h
        cases i with
        | zero =>
          exfalso
          unfold keepTask at hk
          simp only [Bool.and_eq_true, Bool.not_eq_true'] at hk
          rw [Nat.add_zero] at hk
          exact absurd hc2 (by simp [hk.2])
        | succ j =>
          have := ih (idx + 1) data warns h j row (by simpa using hi)
            (by have harith : (idx + 1) + j + 1 = idx + (j + 1) + 1 := by omega
                rw [harith]; exact hk) hne
          have harith : (idx + 1) + j + 2 = idx + (j + 1) + 2 := by omega
          rw [harith] at this
          exact this
      · rw [if_neg hc2] at h
        cases hp : processRow env inRel outRel ps row0 with
        | error e => rw [hp] at h; cases h
        | ok items =>
          rw [hp] at h
          cases hr : rowsLoop env inRel outRel ps tmin tmax rest (idx + 1) with
          | error e => rw [hr] at h; cases h
          | ok r =>
            rw [hr] at h
            cases h
            cases i with
            | zero =>
              simp only [List.getElem?_cons_zero, Option.some.injEq] at hi
              subst hi
              have hg : idx + 0 + 2 = idx + 2 := by omega
              rw [hg, if_neg (by simpa using hne)]
              exact List.mem_append_left _ (by simp)
            | succ j =>
              have := ih (idx + 1) r.1 r.2 (by rw [hr]) j row (by simpa using hi)
                (by have harith : (idx + 1) + j + 1 = idx + (j + 1) + 1 := by omega
                    rw [harith]; exact hk) hne
              have harith : (idx + 1) + j + 2 = idx + (j + 1) + 2 := by omega
              rw [harith] at this
              exact List.mem_append_right _ this

/-- Claim C1 (amended): a data row whose cell count differs from the
header's is tolerated only when it has at least as many cells as the
header: the extra cells are ignored (processing depends only on the
first k cells, k the header width), the mismatch is recorded as a
non-fatal diagnostic for every kept mismatched row, and no IndexError
can arise.  A row with fewer cells than the header, however, always
aborts compilation with an error (the IndexError of the missing cell
index when its present cells validate cleanly) and never yields a
task. -/
theorem c1_width_mismatch_handling (env : PyEnv) :
    (∀ (inRel outRel : Chars) (ps : List HeaderParam) (row : List Chars),
       ps.length ≤ row.length →
       processRow env inRel outRel ps row =
         processRow env inRel outRel ps (row.take ps.length)) ∧
    (∀ (inRel outRel : Chars) (ps : List HeaderParam) (row : List Chars),
       row.length < ps.length →
       ∃ e, processRow env inRel outRel ps row = .error e) ∧
    (∀ (tasks : TasksSpec) (inU outU : FPUtil) (ps0 : List HeaderParam)
       (iU2 oU2 : FPUtil),
       parseTasksFileHeader tasks.header inU outU = .ok (ps0, iU2, oU2) →
       (∀ i row, tasks.rows[i]? = some row →
          keepTask tasks.tmin tasks.tmax (i + 1) = true → ps0.length ≤ row.length) →
       tasksFileToJobData env tasks inU outU ≠ .error .indexError) ∧
    (∀ (tasks : TasksSpec) (inU outU : FPUtil) (data : List TaskData)
       (warns : List WidthWarning) (ps0 : List HeaderParam) (iU2 oU2 : FPUtil),
       parseTasksFileHeader tasks.header inU outU = .ok (ps0, iU2, oU2) →
       tasksFileToJobData env tasks inU outU = .ok (data, warns) →
       ∀ i row, tasks.rows[i]? = some row →
         keepTask tasks.tmin tasks.tmax (i + 1) = true →
         row.length ≠ ps0.length → (row.length, ps0.length, i + 2) ∈ warns) := by
  refine ⟨processRow_take env, processRow_short env, ?_, ?_⟩
  · intro tasks inU outU ps0 iU2 oU2 hh hlen
    unfold tasksFileToJobData
    rw [hh]
    dsimp only
    cases hl : rowsLoop env iU2.relPath oU2.relPath ps0 tasks.tmin tasks.tmax
        tasks.rows 0 with
    | error e =>
      intro h; cases h
      apply rowsLoop_ne_indexError env iU2.relPath oU2.relPath ps0 tasks.tmin tasks.tmax
        tasks.rows 0 ?_ hl
      intro i row hi hk
      apply hlen i row hi
      have harith : 0 + i + 1 = i + 1 := by omega
      rw [harith] at hk
      exact hk
    | ok r =>
      dsimp only
      by_cases hempty : r.1 == []
      · rw [if_pos hempty]
        intro h; cases h
      · rw [if_neg hempty]
        intro h; cases h
  · intro tasks inU outU data warns ps0 iU2 oU2 hh hok i row hi hk hne
    unfold tasksFileToJobData at hok
    rw [hh] at hok
    dsimp only at hok
    cases hl : rowsLoop env iU2.relPath oU2.relPath ps0 tasks.tmin tasks.tmax
        tasks.rows 0 with
    | error e => rw [hl] at hok; cases hok
    | ok r =>
      rw [hl] at hok
      dsimp only at hok
      by_cases hempty : r.1 == []
      · rw [if_pos hempty] at hok; cases hok
      · rw [if_neg hempty] at hok
        cases hok
        have := rowsLoop_warns env iU2.relPath oU2.relPath ps0 tasks.tmin tasks.tmax
          tasks.rows 0 data warns hl i row hi (by simpa using hk) hne
        have harith : 0 + i + 2 = i + 2 := by omega
        rw [harith] at this
        exact this

/-- Claim C1 counterexample: a tasks file with header `--env A`,
`--env B` and the single (shorter) data row `x`.  The diagnostic claim
notwithstanding, compilation aborts with the IndexError raised while
indexing the missing second cell, and no task is produced. -/
theorem c1_width_mismatch_handling_cex :
    tasksFileToJobData ⟨['/', 'h'], ['/', 'w']⟩
      ⟨[['-', '-', 'e', 'n', 'v', ' ', 'A'], ['-', '-', 'e', 'n', 'v', ' ', 'B']],
       [[['x']]], none, none⟩
      ⟨autoPrefInput, 0, []⟩ ⟨autoPrefOutput, 0, []⟩ = .error .indexError := by
  decide

/-- Claim C1 witness: a short row always errors; a longer row (three
cells against two env columns) is processed as its two-cell truncation,
produces no IndexError, and on success carries the width diagnostic
(3 cells vs 2 columns on line 2). -/
theorem c1_width_mismatch_handling_witness :
    (∃ e, processRow ⟨['/', 'h'], ['/', 'w']⟩ [] []
       [.envH ['A'], .envH ['B']] [['x']] = .error e) ∧
    processRow ⟨['/', 'h'], ['/', 'w']⟩ [] [] [.envH ['A']] [['x'], ['y']] =
      processRow ⟨['/', 'h'], ['/', 'w']⟩ [] [] [.envH ['A']]
        (([['x'], ['y']] : List Chars).take [HeaderParam.envH ['A']].length) ∧
    tasksFileToJobData ⟨['/', 'h'], ['/', 'w']⟩
        ⟨[['-', '-', 'e', 'n', 'v', ' ', 'A'], ['-', '-', 'e', 'n', 'v', ' ', 'B']],
         [[['x'], ['y'], ['z']]], none, none⟩
        ⟨autoPrefInput, 0, []⟩ ⟨autoPrefOutput, 0, []⟩ ≠ .error .indexError ∧
    ∀ data warns,
      tasksFileToJobData ⟨['/', 'h'], ['/', 'w']⟩
          ⟨[['-', '-', 'e', 'n', 'v', ' ', 'A'], ['-', '-', 'e', 'n', 'v', ' ', 'B']],
           [[['x'], ['y'], ['z']]], none, none⟩
          ⟨autoPrefInput, 0, []⟩ ⟨autoPrefOutput, 0, []⟩ = .ok (data, warns) →
      ((3 : Nat), (2 : Nat), (2 : Nat)) ∈ warns := by
  refine ⟨?_, ?_, ?_, ?_⟩
  · exact (c1_width_mismatch_handling ⟨['/', 'h'], ['/', 'w']⟩).2.1 [] []
      [.envH ['A'], .envH ['B']] [['x']] (by decide)
  · exact (c1_width_mismatch_handling ⟨['/', 'h'], ['/', 'w']⟩).1 [] []
      [.envH ['A']] [['x'], ['y']] (by decide)
  · apply (c1_width_mismatch_handling ⟨['/', 'h'], ['/', 'w']⟩).2.2.1
      ⟨[['-', '-', 'e', 'n', 'v', ' ', 'A'], ['-', '-', 'e', 'n', 'v', ' ', 'B']],
       [[['x'], ['y'], ['z']]], none, none⟩
      ⟨autoPrefInput, 0, []⟩ ⟨autoPrefOutput, 0, []⟩
      [.envH ['A'], .envH ['B']] ⟨autoPrefInput, 0, []⟩ ⟨autoPrefOutput, 0, []⟩
      (by decide)
    intro i row hi hk
    cases i with
    | zero =>
      simp only [List.getElem?_cons_zero, Option.some.injEq] at hi
      rw [← hi]
      decide
    | succ j => simp at hi
  · intro data warns hok
    have := (c1_width_mismatch_handling ⟨['/', 'h'], ['/', 'w']⟩).2.2.2
      ⟨[['-', '-', 'e', 'n', 'v', ' ', 'A'], ['-', '-', 'e', 'n', 'v', ' ', 'B']],
       [[['x'], ['y'], ['z']]], none, none⟩
      ⟨autoPrefInput, 0, []⟩ ⟨autoPrefOutput, 0, []⟩ data warns
      [.envH ['A'], .envH ['B']] ⟨autoPrefInput, 0, []⟩ ⟨autoPrefOutput, 0, []⟩
      (by decide) hok 0 [['x'], ['y'], ['z']] (by decide) (by decide) (by decide)
    simpa using this

theorem splitFirst_of_not_mem (sep : Char) :
    ∀ t : Chars, sep ∉ t → splitFirst sep t = none := by
  intro t
  induction t with
  | nil => intro _; rfl
  | cons c rest ih =>
    intro h
    have hc : ¬ (c == sep) = true := by
      simp only [beq_iff_eq]
      intro he
      exact h (he ▸ List.mem_cons_self c rest)
    simp only [splitFirst, if_neg hc]
    rw [ih (fun hm => h (List.mem_cons_of_mem c hm))]

theorem splitFirst_append (sep : Char) :
    ∀ (a b : Chars), sep ∉ a → splitFirst sep (a ++ sep :: b) = some (a, b) := by
  intro a
  induction a with
  | nil => intro b _; simp [splitFirst]
  | cons c a2 ih =>
    intro b h
    have hc : ¬ (c == sep) = true := by
      simp only [beq_iff_eq]
      intro he
      exact h (he ▸ List.mem_cons_self c a2)
    simp only [List.cons_append, splitFirst, if_neg hc, List.append_eq]
    rw [ih b (fun hm => h (List.mem_cons_of_mem c hm))]

theorem makeParam_fields (env : PyEnv) (rel nm raw : Chars) (rec : Bool) (f : FileParam) :
    makeParam env rel nm raw rec = .ok f → f.name = nm ∧ f.value = raw := by
  unfold makeParam
  cases hp : parseUri env rel raw rec with
  | error e => dsimp only; intro h; cases h
  | ok r =>
    obtain ⟨d, parts, fp⟩ := r
    dsimp only
    split_ifs <;> intro h
    · cases h; exact ⟨rfl, rfl⟩
    · cases h

/-- Claim C8: every CLI token is split into key and value on the first
separator only; for env and label tokens a missing `=` leaves the value
absent (the key is the whole token), while for input and output file
tokens a missing `=` leaves the key absent (the whole token is the
value) and triggers auto-naming of the parameter from the role's
counter. -/
theorem c8_cli_token_splitting (env : PyEnv) :
    (∀ (a b : Chars) (k : Nat), '=' ∉ a → (k = 0 ∨ k = 1) →
       splitPair (a ++ '=' :: b) '=' k = .ok (some a, some b)) ∧
    (∀ t : Chars, '=' ∉ t →
       splitPair t '=' 1 = .ok (some t, none) ∧
       splitPair t '=' 0 = .ok (none, some t)) ∧
    (∀ (t : Chars) (iU oU : FPUtil), '=' ∉ t → validParamName t = true →
       argsToJobData env [t] [] [] [] [] [] iU oU = .ok ⟨[⟨t, none⟩], [], [], []⟩) ∧
    (∀ (v : Chars) (iU oU : FPUtil) (f : FileParam), '=' ∉ v →
       makeParam env iU.relPath (iU.autoPref ++ Nat.toDigits 10 iU.autoIndex) v false =
         .ok f →
       argsToJobData env [] [] [v] [] [] [] iU oU = .ok ⟨[], [], [f], []⟩ ∧
         f.name = iU.autoPref ++ Nat.toDigits 10 iU.autoIndex ∧ f.value = v) ∧
    (∀ (v : Chars) (iU oU : FPUtil) (f : FileParam), '=' ∉ v →
       makeParam env oU.relPath (oU.autoPref ++ Nat.toDigits 10 oU.autoIndex) v false =
         .ok f →
       argsToJobData env [] [] [] [] [v] [] iU oU = .ok ⟨[], [], [], [f]⟩) := by
  refine ⟨?_, ?_, ?_, ?_, ?_⟩
  · intro a b k hna hk
    unfold splitPair
    rw [splitFirst_append '=' a b hna]
  · intro t hnt
    unfold splitPair
    rw [splitFirst_of_not_mem '=' t hnt]
    exact ⟨rfl, rfl⟩
  · intro t iU oU hnt hv
    have hsf : splitFirst '=' t = none := splitFirst_of_not_mem '=' t hnt
    simp [argsToJobData, parsePairArgsEnv, parsePairArgsLabel, fileArgsLoop, splitPair,
      hsf, mkEnvParam, hv]
  · intro v iU oU f hnv hmk
    have hsf : splitFirst '=' v = none := splitFirst_of_not_mem '=' v hnv
    refine ⟨?_, makeParam_fields env iU.relPath _ v false f hmk⟩
    simp [argsToJobData, parsePairArgsEnv, parsePairArgsLabel, fileArgsLoop, splitPair,
      hsf, getVariableName, hmk]
  · intro v iU oU f hnv hmk
    have hsf : splitFirst '=' v = none := splitFirst_of_not_mem '=' v hnv
    simp [argsToJobData, parsePairArgsEnv, parsePairArgsLabel, fileArgsLoop, splitPair,
      hsf, getVariableName, hmk]

/-- Claim C8 witness: splitting `k=v=w`, a bare env token `A`, and a
bare input and output uri token `gs://b/f` which auto-name to INPUT_0
and OUTPUT_0. -/
theorem c8_cli_token_splitting_witness :
    splitPair (['k', '=', 'v', '=', 'w'] : Chars) '=' 0 =
      .ok (some ['k'], some ['v', '=', 'w']) ∧
    splitPair (['A'] : Chars) '=' 1 = .ok (some ['A'], none) ∧
    argsToJobData ⟨['/', 'h'], ['/', 'w']⟩ [['A']] [] [] [] [] []
      ⟨autoPrefInput, 0, []⟩ ⟨autoPrefOutput, 0, []⟩ =
      .ok ⟨[⟨['A'], none⟩], [], [], []⟩ ∧
    ∃ f, argsToJobData ⟨['/', 'h'], ['/', 'w']⟩ [] []
        [['g', 's', ':', '/', '/', 'b', '/', 'f']] [] [] []
        ⟨autoPrefInput, 0, []⟩ ⟨autoPrefOutput, 0, []⟩ = .ok ⟨[], [], [f], []⟩ ∧
      f.name = ['I', 'N', 'P', 'U', 'T', '_', '0'] ∧
      f.value = ['g', 's', ':', '/', '/', 'b', '/', 'f'] := by
  refine ⟨?_, ?_, ?_, ?_⟩
  · have h := (c8_cli_token_splitting ⟨['/', 'h'], ['/', 'w']⟩).1 ['k'] ['v', '=', 'w'] 0
      (by decide) (Or.inl rfl)
    simpa using h
  · exact ((c8_cli_token_splitting ⟨['/', 'h'], ['/', 'w']⟩).2.1 ['A'] (by decide)).1
  · exact (c8_cli_token_splitting ⟨['/', 'h'], ['/', 'w']⟩).2.2.1 ['A']
      ⟨autoPrefInput, 0, []⟩ ⟨autoPrefOutput, 0, []⟩ (by decide) (by decide)
  · refine ⟨⟨['I', 'N', 'P', 'U', 'T', '_', '0'], ['g', 's', ':', '/', '/', 'b', '/', 'f'],
      ['g', 's', '/', 'b', '/', 'f'], ⟨['g', 's', ':', '/', '/', 'b', '/'], ['f']⟩,
      false, .pGcs⟩, ?_, by decide, by decide⟩
    have h := (c8_cli_token_splitting ⟨['/', 'h'], ['/', 'w']⟩).2.2.2.1
      ['g', 's', ':', '/', '/', 'b', '/', 'f'] ⟨autoPrefInput, 0, []⟩
      ⟨autoPrefOutput, 0, []⟩
      ⟨['I', 'N', 'P', 'U', 'T', '_', '0'], ['g', 's', ':', '/', '/', 'b', '/', 'f'],
        ['g', 's', '/', 'b', '/', 'f'], ⟨['g', 's', ':', '/', '/', 'b', '/'], ['f']⟩,
        false, .pGcs⟩ (by decide) (by decide)
    exact h.1

/-- Claim C7: building a logging parameter from an empty uri yields the
LoggingParam with no uri and no provider; a non-empty uri is resolved
as non-recursive exactly when it ends in `.log` (and as recursive
otherwise), the call fails when the resolved basename contains a `*`
wildcard, succeeds with the resolved parts and provider when it does
not, and propagates any resolution failure. -/
theorem c7_logging_param (env : PyEnv) :
    buildLoggingParam env [] = .ok ⟨none, none⟩ ∧
    (∀ u : Chars, u ≠ [] →
       (∀ d parts fp,
          parseUri env [] u (!(endsW dotLogS u)) = .ok (d, parts, fp) →
          ('*' ∈ parts.basename → buildLoggingParam env u = .error .unsupportedPath) ∧
          ('*' ∉ parts.basename → buildLoggingParam env u = .ok ⟨some parts, some fp⟩)) ∧
       (∀ e, parseUri env [] u (!(endsW dotLogS u)) = .error e →
          buildLoggingParam env u = .error e)) := by
  constructor
  · rfl
  · intro u hu
    constructor
    · intro d parts fp hp
      unfold buildLoggingParam
      rw [if_neg (by simpa using hu)]
      dsimp only
      rw [hp]
      dsimp only
      constructor
      · intro hstar
        rw [if_pos (by simpa using hstar)]
      · intro hstar
        rw [if_neg (by simpa using hstar)]
    · intro e hp
      unfold buildLoggingParam
      rw [if_neg (by simpa using hu)]
      dsimp only
      rw [hp]

/-- Claim C7 witness: the empty uri, a `.log` uri resolved
non-recursively, and a `.log` uri whose basename carries a wildcard. -/
theorem c7_logging_param_witness :
    buildLoggingParam ⟨['/', 'h'], ['/', 'w']⟩ [] = .ok ⟨none, none⟩ ∧
    buildLoggingParam ⟨['/', 'h'], ['/', 'w']⟩
        ['g', 's', ':', '/', '/', 'b', '/', 'f', '.', 'l', 'o', 'g'] =
      .ok ⟨some ⟨['g', 's', ':', '/', '/', 'b', '/'], ['f', '.', 'l', 'o', 'g']⟩,
           some .pGcs⟩ ∧
    buildLoggingParam ⟨['/', 'h'], ['/', 'w']⟩
        ['g', 's', ':', '/', '/', 'b', '/', '*', '.', 'l', 'o', 'g'] =
      .error .unsupportedPath := by
  refine ⟨(c7_logging_param ⟨['/', 'h'], ['/', 'w']⟩).1, ?_, ?_⟩
  · exact (((c7_logging_param ⟨['/', 'h'], ['/', 'w']⟩).2
      ['g', 's', ':', '/', '/', 'b', '/', 'f', '.', 'l', 'o', 'g'] (by decide)).1
      ['g', 's', '/', 'b', '/', 'f', '.', 'l', 'o', 'g']
      ⟨['g', 's', ':', '/', '/', 'b', '/'], ['f', '.', 'l', 'o', 'g']⟩ .pGcs
      (by decide)).2 (by decide)
  · exact (((c7_logging_param ⟨['/', 'h'], ['/', 'w']⟩).2
      ['g', 's', ':', '/', '/', 'b', '/', '*', '.', 'l', 'o', 'g'] (by decide)).1
      ['g', 's', '/', 'b', '/', '*', '.', 'l', 'o', 'g']
      ⟨['g', 's', ':', '/', '/', 'b', '/'], ['*', '.', 'l', 'o', 'g']⟩ .pGcs
      (by decide)).1 (by decide)

theorem startsW_self_append : ∀ (p x : Chars), startsW p (p ++ x) = true := by
  intro p
  induction p with
  | nil => intro x; rfl
  | cons c ps ih => intro x; simp [startsW, ih]

theorem startsW_iff_append (p s : Chars) :
    startsW p s = true ↔ ∃ t, s = p ++ t := by
  constructor
  · intro h
    induction p generalizing s with
    | nil => exact ⟨s, rfl⟩
    | cons c ps ih =>
      cases s with
      | nil => cases h
      | cons d rest =>
        simp only [startsW, Bool.and_eq_true, beq_iff_eq] at h
        obtain ⟨t, ht⟩ := ih rest h.2
        exact ⟨t, by rw [List.cons_append, ht, h.1]⟩
  · intro ⟨t, ht⟩
    rw [ht]
    exact startsW_self_append p t

theorem hasSub_nil_pat : ∀ x : Chars, hasSub [] x = true := by
  intro x
  cases x <;> simp [hasSub, startsW]

theorem hasSub_append_self : ∀ (a p b : Chars), hasSub p (a ++ (p ++ b)) = true := by
  intro a
  induction a with
  | nil =>
    intro p b
    cases p with
    | nil => exact hasSub_nil_pat b
    | cons c ps =>
      simp only [List.nil_append, List.cons_append, hasSub, List.append_eq]
      have h := startsW_self_append (c :: ps) b
      simp only [List.cons_append] at h
      rw [h]
      simp
  | cons c a2 ih =>
    intro p b
    simp only [List.cons_append, hasSub, List.append_eq]
    rw [ih p b]
    simp

theorem takeWhile_append_all {p : Char → Bool} :
    ∀ (a x : Chars), a.all p = true → (a ++ x).takeWhile p = a ++ x.takeWhile p := by
  intro a
  induction a with
  | nil => intro x _; rfl
  | cons c a2 ih =>
    intro x h
    simp only [List.all_cons, Bool.and_eq_true] at h
    simp [List.cons_append, List.takeWhile_cons, h.1, ih x h.2]

theorem drop_length_takeWhile {p : Char → Bool} (l : Chars) :
    l.drop (l.takeWhile p).length = l.dropWhile p := by
  induction l with
  | nil => rfl
  | cons c rest ih =>
    by_cases hc : p c
    · simp [List.takeWhile_cons, List.dropWhile_cons, hc, ih]
    · simp [List.takeWhile_cons, List.dropWhile_cons, hc]

theorem matchScheme_of_tok (tok rest : Chars) (h : schemeTokOk tok = true) :
    matchScheme (tok ++ colonSlash2 ++ rest) = some tok := by
  cases tok with
  | nil => cases h
  | cons c tr =>
    simp only [schemeTokOk, Bool.and_eq_true, decide_eq_true_eq] at h
    obtain ⟨⟨halpha, hall⟩, hlen⟩ := h
    have hcolon : (colonSlash2 ++ rest).takeWhile schemeChar = [] := rfl
    have htw : (tr ++ (colonSlash2 ++ rest)).takeWhile schemeChar = tr := by
      rw [takeWhile_append_all tr (colonSlash2 ++ rest) hall, hcolon, List.append_nil]
    simp only [List.cons_append, List.append_assoc, matchScheme, halpha, if_pos, htw]
    rw [List.drop_left]
    have hst : startsW colonSlash2 (colonSlash2 ++ rest) = true :=
      startsW_self_append colonSlash2 rest
    simp [hlen, hst]

theorem matchScheme_some (uri tok : Chars) (h : matchScheme uri = some tok) :
    ∃ rest, uri = tok ++ colonSlash2 ++ rest ∧ schemeTokOk tok = true := by
  cases uri with
  | nil => cases h
  | cons c r0 =>
    simp only [matchScheme] at h
    by_cases halpha : c.isAlpha
    · rw [if_pos halpha] at h
      by_cases hcond : (decide ((r0.takeWhile schemeChar).length ≤ 29) &&
          startsW colonSlash2 (r0.drop (r0.takeWhile schemeChar).length)) = true
      · rw [if_pos hcond] at h
        cases h
        simp only [Bool.and_eq_true, decide_eq_true_eq] at hcond
        obtain ⟨hlen, hst⟩ := hcond
        rw [drop_length_takeWhile r0] at hst
        obtain ⟨rest, hrest⟩ := (startsW_iff_append _ _).mp hst
        refine ⟨rest, ?_, ?_⟩
        · rw [List.append_assoc, List.cons_append, ← hrest,
            List.takeWhile_append_dropWhile]
        · simp only [schemeTokOk, Bool.and_eq_true, decide_eq_true_eq]
          exact ⟨⟨halpha, List.all_takeWhile⟩, hlen⟩
      · rw [if_neg hcond] at h
        cases h
    · rw [if_neg halpha] at h
      cases h

/-- Claim C6 (amended): provider detection matches a leading scheme
token only when its first character is an ASCII letter, followed by up
to 29 characters drawn from letters, digits, `+`, `.`, `-`, and then
`://`; the token is lowercased and looked up: `gs` yields the cloud
provider, `file` the local one, and any other such scheme fails with
the unsupported-provider error.  A URI bearing no such scheme (which
includes schemes starting with a digit) yields the local provider. -/
theorem c6_provider_detection :
    (∀ tok rest : Chars, schemeTokOk tok = true →
       parseFileProvider (tok ++ colonSlash2 ++ rest) =
         providerOf (tok.map Char.toLower)) ∧
    (∀ uri : Chars,
       (∀ tok rest : Chars, uri = tok ++ colonSlash2 ++ rest → schemeTokOk tok = false) →
       parseFileProvider uri = .ok .pLocal) ∧
    providerOf gsS = .ok .pGcs ∧
    providerOf fileS = .ok .pLocal ∧
    (∀ pre : Chars, pre ≠ gsS → pre ≠ fileS →
       providerOf pre = .error .unsupportedProvider) := by
  refine ⟨?_, ?_, rfl, rfl, ?_⟩
  · intro tok rest h
    unfold parseFileProvider
    rw [matchScheme_of_tok tok rest h]
  · intro uri hno
    unfold parseFileProvider
    cases hm : matchScheme uri with
    | none => rfl
    | some tok =>
      obtain ⟨rest, hrest, htok⟩ := matchScheme_some uri tok hm
      rw [hno tok rest hrest] at htok
      cases htok
  · intro pre h1 h2
    unfold providerOf
    rw [if_neg (by simpa using h1), if_neg (by simpa using h2)]

/-- Claim C6 counterexample: `9s://x` has a scheme token exactly as the
claim words it (1-30 characters of letters, digits, `+`, `.`, `-`)
which is neither `gs` nor `file`, so the claim predicts the
unsupported-provider failure; the code instead treats the URI as
local, because the regex requires the first scheme character to be a
letter and `9` is not. -/
theorem c6_provider_detection_cex :
    claimSchemeTok ['9', 's'] = true ∧
    (['9', 's', ':', '/', '/', 'x'] : Chars) = ['9', 's'] ++ colonSlash2 ++ ['x'] ∧
    (['9', 's'] : Chars) ≠ gsS ∧ (['9', 's'] : Chars) ≠ fileS ∧
    parseFileProvider ['9', 's', ':', '/', '/', 'x'] = .ok .pLocal := by
  decide

/-- Claim C6 witness: `gs://b/f` maps to the cloud provider, `ftp://x`
fails, `/tmp/x` (no scheme) is local. -/
theorem c6_provider_detection_witness :
    parseFileProvider ['g', 's', ':', '/', '/', 'b', '/', 'f'] = .ok .pGcs ∧
    parseFileProvider ['f', 't', 'p', ':', '/', '/', 'x'] = .error .unsupportedProvider ∧
    parseFileProvider ['/', 't', 'm', 'p', '/', 'x'] = .ok .pLocal := by
  refine ⟨?_, ?_, ?_⟩
  · have h := c6_provider_detection.1 ['g', 's'] ['b', '/', 'f'] (by decide)
    calc parseFileProvider ['g', 's', ':', '/', '/', 'b', '/', 'f']
        = parseFileProvider (['g', 's'] ++ colonSlash2 ++ ['b', '/', 'f']) := by rfl
      _ = providerOf (['g', 's'].map Char.toLower) := h
      _ = .ok .pGcs := by decide
  · have h := c6_provider_detection.1 ['f', 't', 'p'] ['x'] (by decide)
    calc parseFileProvider ['f', 't', 'p', ':', '/', '/', 'x']
        = parseFileProvider (['f', 't', 'p'] ++ colonSlash2 ++ ['x']) := by rfl
      _ = providerOf (['f', 't', 'p'].map Char.toLower) := h
      _ = .error .unsupportedProvider := by decide
  · apply c6_provider_detection.2.1
    intro tok rest heq
    exfalso
    have hsub : hasSub colonSlash2 (tok ++ (colonSlash2 ++ rest)) = true :=
      hasSub_append_self tok colonSlash2 rest
    rw [← List.append_assoc, ← heq] at hsub
    exact absurd hsub (by decide)

theorem posixSplitRaw_append (u : Chars) :
    (posixSplitRaw u).1 ++ (posixSplitRaw u).2 = u := by
  unfold posixSplitRaw
  dsimp only
  rw [← List.reverse_append, List.takeWhile_append_dropWhile, List.reverse_reverse]

theorem dropWhile_dropWhile {p : Char → Bool} :
    ∀ x : Chars, (x.dropWhile p).dropWhile p = x.dropWhile p := by
  intro x
  induction x with
  | nil => rfl
  | cons c rest ih =>
    by_cases hc : p c
    · simp [List.dropWhile_cons, hc, ih]
    · simp [List.dropWhile_cons, hc]

theorem rstripSlash_idem (l : Chars) : rstripSlash (rstripSlash l) = rstripSlash l := by
  unfold rstripSlash
  rw [List.reverse_reverse, dropWhile_dropWhile]

theorem posixSplit_snd (u : Chars) : (posixSplit u).2 = (posixSplitRaw u).2 := rfl

theorem fmt_dirname (u : Chars) :
    directoryFmt (posixSplit u).1 = rstripSlash (posixSplitRaw u).1 ++ ['/'] := by
  unfold posixSplit directoryFmt
  dsimp only
  split_ifs with h
  · rw [rstripSlash_idem]
  · rfl

theorem directoryFmt_endsSlash (d : Chars) : endsW ['/'] (directoryFmt d) = true := by
  unfold endsW directoryFmt
  rw [List.reverse_append]
  simp [startsW]

theorem uriParts_roundtrip_iff (u : Chars) :
    uriPartsVal (mkUriParts u) = u ↔ goodSlash u = true := by
  unfold uriPartsVal mkUriParts goodSlash
  rw [fmt_dirname u, posixSplit_snd]
  constructor
  · intro h
    rw [beq_iff_eq]
    have h2 : (rstripSlash (posixSplitRaw u).1 ++ ['/']) ++ (posixSplitRaw u).2 =
        (posixSplitRaw u).1 ++ (posixSplitRaw u).2 := by
      rw [posixSplitRaw_append u]
      exact h
    exact List.append_cancel_right h2
  · intro h
    rw [beq_iff_eq] at h
    rw [h]
    exact posixSplitRaw_append u

theorem mem_takeWhile_pred {p : Char → Bool} :
    ∀ (l : Chars) (x : Char), x ∈ l.takeWhile p → p x = true := by
  intro l
  induction l with
  | nil => intro x h; cases h
  | cons c rest ih =>
    intro x h
    by_cases hc : p c
    · simp only [List.takeWhile_cons, hc, if_true] at h
      rcases List.mem_cons.mp h with h1 | h2
      · rw [h1]; exact hc
      · exact ih x h2
    · simp only [List.takeWhile_cons] at h
      rw [if_neg (by simpa using hc)] at h
      cases h

theorem posixSplit_snd_noSlash (u : Chars) : '/' ∉ (posixSplit u).2 := by
  rw [posixSplit_snd]
  unfold posixSplitRaw
  dsimp only
  intro hm
  rw [List.mem_reverse] at hm
  have := mem_takeWhile_pred _ _ hm
  simp at this

theorem rstripSlash_append_slash (x : Chars) :
    rstripSlash (x ++ ['/']) = rstripSlash x := by
  unfold rstripSlash
  rw [List.reverse_append]
  simp [List.dropWhile_cons]

theorem pyJoin_dirFmt (x f : Chars) (hf : '/' ∉ f) :
    pyJoin (directoryFmt x) f = directoryFmt x ++ f := by
  unfold pyJoin
  have h1 : startsW ['/'] f = false := by
    cases f with
    | nil => rfl
    | cons c rest =>
      simp only [startsW]
      have : ¬ ('/' == c) = true := by
        simp only [beq_iff_eq]
        intro he
        exact hf (he ▸ List.mem_cons_self c rest)
      simp [this]
  have h2 : ¬ (directoryFmt x == []) = true := by
    simp only [beq_iff_eq]
    unfold directoryFmt
    simp
  rw [h1]
  simp only [Bool.false_eq_true, if_false]
  rw [if_neg h2, if_pos (directoryFmt_endsSlash x)]

theorem dropWhile_append_all {p : Char → Bool} :
    ∀ (a x : Chars), (∀ c ∈ a, p c = true) → (a ++ x).dropWhile p = x.dropWhile p := by
  intro a
  induction a with
  | nil => intro x _; rfl
  | cons c a2 ih =>
    intro x h
    have hc := h c (List.mem_cons_self c a2)
    simp only [List.cons_append, List.dropWhile_cons, hc, if_true]
    exact ih x (fun d hd => h d (List.mem_cons_of_mem c hd))

theorem posixSplitRaw_dirFmt_append (x f : Chars) (hf : '/' ∉ f) :
    (posixSplitRaw (directoryFmt x ++ f)).1 = rstripSlash x ++ ['/'] := by
  have hall : ∀ c ∈ f.reverse, (fun c => !(c == '/')) c = true := by
    intro c hc
    rw [List.mem_reverse] at hc
    simp only [Bool.not_eq_true', beq_eq_false_iff_ne]
    intro he
    exact hf (he ▸ hc)
  unfold posixSplitRaw directoryFmt
  dsimp only
  rw [List.append_assoc, List.reverse_append, List.reverse_append, List.reverse_singleton,
    List.append_assoc, List.singleton_append, dropWhile_append_all _ _ hall,
    List.dropWhile_cons]
  simp only [beq_self_eq_true, Bool.not_true, Bool.false_eq_true, if_false,
    List.reverse_cons]
  rw [List.reverse_reverse]

theorem goodSlash_dirFmt_append (x f : Chars) (hf : '/' ∉ f) :
    goodSlash (directoryFmt x ++ f) = true := by
  unfold goodSlash
  rw [posixSplitRaw_dirFmt_append x f hf, rstripSlash_append_slash, rstripSlash_idem]
  simp

theorem localUriRewriter_goodSlash (env : PyEnv) (rawUri : Chars) :
    goodSlash (localUriRewriter env rawUri).1 = true := by
  unfold localUriRewriter
  dsimp only
  rw [pyJoin_dirFmt _ _ (posixSplit_snd_noSlash rawUri)]
  exact goodSlash_dirFmt_append _ _ (posixSplit_snd_noSlash rawUri)

/-- Claim C3 (amended): the pathPrefix of a UriParts built by parse_uri
always ends in `/`; concatenating pathPrefix and basename reconstructs
the normalized URI exactly when (and only when) the normalized URI's
directory head ends in a single slash (goodSlash).  Local URIs, whose
directory part is rebuilt with directory_fmt, always satisfy this; a
cloud URI is kept verbatim, so a doubled slash immediately before its
basename (or the bare `gs://file` form) breaks the round-trip. -/
theorem c3_uriparts_roundtrip :
    (∀ u : Chars, endsW ['/'] (mkUriParts u).path = true) ∧
    (∀ u : Chars, uriPartsVal (mkUriParts u) = u ↔ goodSlash u = true) ∧
    (∀ (env : PyEnv) (rawUri : Chars),
       goodSlash (localUriRewriter env rawUri).1 = true) ∧
    (∀ (env : PyEnv) (relPath rawUri : Chars) (recursive : Bool)
       (d : Chars) (parts : UriParts) (fp : FileProvider),
       parseUri env relPath rawUri recursive = .ok (d, parts, fp) →
       parts = mkUriParts (rewriteUris relPath env (recUri recursive rawUri) fp).1) := by
  refine ⟨?_, uriParts_roundtrip_iff, localUriRewriter_goodSlash, ?_⟩
  · intro u
    exact directoryFmt_endsSlash (posixSplit u).1
  · intro env relPath rawUri recursive d parts fp h
    unfold parseUri at h
    cases hf : parseFileProvider (recUri recursive rawUri) with
    | error e => rw [hf] at h; cases h
    | ok fp2 =>
      rw [hf] at h
      dsimp only at h
      cases hv : validatePathsOrFail (recUri recursive rawUri) recursive with
      | error e => rw [hv] at h; cases h
      | ok u2 =>
        rw [hv] at h
        dsimp only at h
        cases h
        rfl

/-- Claim C3 counterexample: `gs://b//f.txt` is accepted, its
normalized URI is the raw URI unchanged (cloud URIs are not rewritten),
yet pathPrefix + basename gives `gs://b/f.txt`, losing the doubled
slash. -/
theorem c3_uriparts_roundtrip_cex :
    (rewriteUris [] ⟨['/', 'h'], ['/', 'w']⟩
       ['g', 's', ':', '/', '/', 'b', '/', '/', 'f', '.', 't', 'x', 't'] .pGcs).1 =
      ['g', 's', ':', '/', '/', 'b', '/', '/', 'f', '.', 't', 'x', 't'] ∧
    parseUri ⟨['/', 'h'], ['/', 'w']⟩ []
        ['g', 's', ':', '/', '/', 'b', '/', '/', 'f', '.', 't', 'x', 't'] false =
      .ok (['g', 's', '/', 'b', '/', '/', 'f', '.', 't', 'x', 't'],
           ⟨['g', 's', ':', '/', '/', 'b', '/'], ['f', '.', 't', 'x', 't']⟩, .pGcs) ∧
    uriPartsVal ⟨['g', 's', ':', '/', '/', 'b', '/'], ['f', '.', 't', 'x', 't']⟩ ≠
      ['g', 's', ':', '/', '/', 'b', '/', '/', 'f', '.', 't', 'x', 't'] := by
  decide

/-- Claim C3 witness: for the accepted URI `gs://b/f.txt` the parts
produced by parse_uri are the UriParts of the normalized URI, the
pathPrefix ends in a slash, and the round-trip holds since the URI has
no doubled slash. -/
theorem c3_uriparts_roundtrip_witness :
    (⟨['g', 's', ':', '/', '/', 'b', '/'], ['f', '.', 't', 'x', 't']⟩ : UriParts) =
      mkUriParts (rewriteUris [] ⟨['/', 'h'], ['/', 'w']⟩
        (recUri false ['g', 's', ':', '/', '/', 'b', '/', 'f', '.', 't', 'x', 't'])
        FileProvider.pGcs).1 ∧
    uriPartsVal (mkUriParts ['g', 's', ':', '/', '/', 'b', '/', 'f', '.', 't', 'x', 't']) =
      ['g', 's', ':', '/', '/', 'b', '/', 'f', '.', 't', 'x', 't'] ∧
    endsW ['/'] (mkUriParts ['g', 's', ':', '/', '/', 'b', '/', 'f', '.', 't', 'x', 't']).path =
      true ∧
    goodSlash (localUriRewriter ⟨['/', 'h'], ['/', 'w']⟩
      ['.', '/', 'd', 'a', 't', 'a', '/', 'f']).1 = true := by
  refine ⟨?_, ?_, ?_, ?_⟩
  · exact c3_uriparts_roundtrip.2.2.2 ⟨['/', 'h'], ['/', 'w']⟩ []
      ['g', 's', ':', '/', '/', 'b', '/', 'f', '.', 't', 'x', 't'] false
      ['g', 's', '/', 'b', '/', 'f', '.', 't', 'x', 't']
      ⟨['g', 's', ':', '/', '/', 'b', '/'], ['f', '.', 't', 'x', 't']⟩ .pGcs (by decide)
  · exact (c3_uriparts_roundtrip.2.1
      ['g', 's', ':', '/', '/', 'b', '/', 'f', '.', 't', 'x', 't']).mpr (by decide)
  · exact c3_uriparts_roundtrip.1 ['g', 's', ':', '/', '/', 'b', '/', 'f', '.', 't', 'x', 't']
  · exact c3_uriparts_roundtrip.2.2.1 ⟨['/', 'h'], ['/', 'w']⟩
      ['.', '/', 'd', 'a', 't', 'a', '/', 'f']

theorem startsW_dot_subSlashDD (r : Chars) :
    startsW ['.'] (subSlashDD r) = true → startsW ['.'] r = true := by
  cases r with
  | nil => intro h; simp [subSlashDD, startsW] at h
  | cons c rest =>
    intro h
    simp only [subSlashDD] at h
    by_cases hc : (c == '/' && startsW ['.', '.'] rest) = true
    · rw [if_pos hc] at h
      simp [startsW] at h
    · rw [if_neg hc] at h
      simp only [startsW, Bool.and_eq_true, beq_iff_eq] at h ⊢
      exact ⟨h.1, trivial⟩

theorem startsW_dd_subSlashDD (r : Chars) :
    startsW ['.', '.'] (subSlashDD r) = true → startsW ['.', '.'] r = true := by
  cases r with
  | nil => intro h; simp [subSlashDD, startsW] at h
  | cons c rest =>
    intro h
    simp only [subSlashDD] at h
    by_cases hc : (c == '/' && startsW ['.', '.'] rest) = true
    · rw [if_pos hc] at h
      simp [startsW] at h
    · rw [if_neg hc] at h
      simp only [startsW, Bool.and_eq_true, beq_iff_eq] at h ⊢
      refine ⟨h.1, ?_⟩
      have h2 : startsW ['.'] (subSlashDD rest) = true := by
        have := h.2
        cases hrest : subSlashDD rest with
        | nil => rw [hrest] at this; simp [startsW] at this
        | cons d t =>
          rw [hrest] at this
          simp only [startsW, Bool.and_eq_true, beq_iff_eq] at this ⊢
          exact ⟨this.1, trivial⟩
      have h3 := startsW_dot_subSlashDD rest h2
      cases rest with
      | nil => cases h3
      | cons d t =>
        simp only [startsW, Bool.and_eq_true, beq_iff_eq] at h3 ⊢
        exact ⟨h3.1, trivial⟩

theorem hasSlashDD_subSlashDD (s : Chars) : hasSlashDD (subSlashDD s) = false := by
  induction s using subSlashDD.induct with
  | case1 => simp [subSlashDD, hasSlashDD]
  | case2 c rest hc ih =>
    simp only [subSlashDD, if_pos hc]
    simp [hasSlashDD, ddRepl, startsW, ih]
  | case3 c rest hc ih =>
    simp only [subSlashDD, if_neg hc]
    simp only [hasSlashDD, ih, Bool.or_false]
    by_cases hcslash : (c == '/') = true
    · have hnd : ¬ startsW ['.', '.'] rest = true := by
        intro hnd2
        exact hc (by simp [hcslash, hnd2])
      have h2 : ¬ startsW ['.', '.'] (subSlashDD rest) = true := by
        intro h3
        exact hnd (startsW_dd_subSlashDD rest h3)
      simp [Bool.eq_false_iff.mpr h2]
    · simp [Bool.eq_false_iff.mpr hcslash]

theorem hasSlashDD_tail (c : Char) (r : Chars) (h : hasSlashDD (c :: r) = false) :
    hasSlashDD r = false := by
  simp only [hasSlashDD, Bool.or_eq_false_iff] at h
  exact h.2

theorem hasSlashDD_ddRepl (t : Chars) :
    hasSlashDD (ddRepl ++ t) = hasSlashDD t := by
  simp [ddRepl, hasSlashDD, startsW]

theorem hasSlashDD_homeRepl (t : Chars) :
    hasSlashDD (homeRepl ++ t) = (startsW ['.', '.'] t || hasSlashDD t) := by
  simp [homeRepl, hasSlashDD, startsW]

theorem hasSlashDD_fileColon (t : Chars) :
    hasSlashDD (fileColonS ++ t) = (startsW ['.', '.'] t || hasSlashDD t) := by
  simp [fileColonS, hasSlashDD, startsW]

theorem hasSlashDD_subCaretDD (t : Chars) (h : hasSlashDD t = false) :
    hasSlashDD (subCaretDD t) = false := by
  unfold subCaretDD
  by_cases hs : startsW ['.', '.'] t = true
  · rw [if_pos hs]
    obtain ⟨t2, ht⟩ := (startsW_iff_append _ _).mp hs
    subst ht
    rw [hasSlashDD_ddRepl]
    simp only [List.cons_append, List.nil_append, List.drop_succ_cons, List.drop_zero]
    exact hasSlashDD_tail _ _ (hasSlashDD_tail _ _ h)
  · rw [if_neg hs]
    exact h

theorem hasSlashDD_subCaretHome (t : Chars) (h : hasSlashDD t = false) :
    hasSlashDD (subCaretHome t) = false := by
  unfold subCaretHome
  by_cases hs : startsW ['~', '/'] t = true
  · rw [if_pos hs]
    obtain ⟨t2, ht⟩ := (startsW_iff_append _ _).mp hs
    subst ht
    rw [hasSlashDD_homeRepl]
    simp only [List.cons_append, List.nil_append, List.drop_succ_cons, List.drop_zero]
    simp only [List.cons_append, List.nil_append] at h
    have h2 := hasSlashDD_tail _ _ h
    simp only [hasSlashDD, Bool.or_eq_false_iff] at h2
    have ha : startsW ['.', '.'] t2 = false := by simpa using h2.1
    simp [ha, h2.2]
  · rw [if_neg hs]
    exact h

theorem hasSlashDD_subCaretFileColon (t : Chars) (h : hasSlashDD t = false) :
    hasSlashDD (subCaretFileColon t) = false := by
  unfold subCaretFileColon
  by_cases hs : startsW fileColonS t = true
  · rw [if_pos hs]
    obtain ⟨t2, ht⟩ := (startsW_iff_append _ _).mp hs
    subst ht
    rw [hasSlashDD_fileColon] at h
    simp only [Bool.or_eq_false_iff] at h
    have hdrop : (fileColonS ++ t2).drop 6 = t2 := by
      simp [fileColonS]
    rw [hdrop]
    exact h.2
  · rw [if_neg hs]
    exact h

theorem hasSlashDD_dropWhile (p : Char → Bool) :
    ∀ l : Chars, hasSlashDD l = false → hasSlashDD (l.dropWhile p) = false := by
  intro l
  induction l with
  | nil => intro h; exact h
  | cons c r ih =>
    intro h
    by_cases hc : p c
    · simp only [List.dropWhile_cons, hc, if_true]
      exact ih (hasSlashDD_tail c r h)
    · simp only [List.dropWhile_cons]
      rw [if_neg (by simpa using hc)]
      exact h

theorem head_dropWhile_false (p : Char → Bool) :
    ∀ (l : Chars) (c : Char) (r : Chars), l.dropWhile p = c :: r → p c = false := by
  intro l
  induction l with
  | nil => intro c r h; cases h
  | cons d l2 ih =>
    intro c r h
    by_cases hd : p d
    · simp only [List.dropWhile_cons, hd, if_true] at h
      exact ih c r h
    · simp only [List.dropWhile_cons] at h
      rw [if_neg (by simpa using hd)] at h
      cases h
      simpa using hd

theorem startsW_mono_append (q : Chars) :
    ∀ (A B : Chars), startsW q A = true → startsW q (A ++ B) = true := by
  induction q with
  | nil => intro A B _; rfl
  | cons qc qs ih =>
    intro A B h
    cases A with
    | nil => cases h
    | cons a A2 =>
      simp only [startsW, Bool.and_eq_true] at h
      simp only [List.cons_append, startsW, Bool.and_eq_true]
      exact ⟨h.1, ih A2 B h.2⟩

theorem hasSlashDD_mono_append :
    ∀ (A B : Chars), hasSlashDD A = true → hasSlashDD (A ++ B) = true := by
  intro A
  induction A with
  | nil => intro B h; cases h
  | cons c r ih =>
    intro B h
    simp only [hasSlashDD, Bool.or_eq_true, Bool.and_eq_true] at h
    simp only [List.cons_append, hasSlashDD, Bool.or_eq_true, Bool.and_eq_true]
    rcases h with ⟨h1, h2⟩ | h3
    · exact Or.inl ⟨h1, startsW_mono_append _ r B h2⟩
    · exact Or.inr (ih B h3)

theorem rstripSlash_decomp (l : Chars) : ∃ B, l = rstripSlash l ++ B := by
  refine ⟨(l.reverse.takeWhile (fun c => c == '/')).reverse, ?_⟩
  unfold rstripSlash
  conv_lhs => rw [← List.reverse_reverse l,
    ← List.takeWhile_append_dropWhile (fun c => c == '/') l.reverse,
    List.reverse_append]

theorem hasSlashDD_rstrip (l : Chars) (h : hasSlashDD l = false) :
    hasSlashDD (rstripSlash l) = false := by
  obtain ⟨B, hB⟩ := rstripSlash_decomp l
  by_contra h2
  rw [hB, hasSlashDD_mono_append _ B (by simpa using h2)] at h
  cases h

theorem startsW_dd_rstrip (l : Chars) (h : startsW ['.', '.'] l = false) :
    startsW ['.', '.'] (rstripSlash l) = false := by
  obtain ⟨B, hB⟩ := rstripSlash_decomp l
  by_contra h2
  rw [hB, startsW_mono_append _ _ B (by simpa using h2)] at h
  cases h

theorem dropWhile_append_pos {p : Char → Bool} :
    ∀ (X Y : Chars), X.dropWhile p ≠ [] → (X ++ Y).dropWhile p = X.dropWhile p ++ Y := by
  intro X
  induction X with
  | nil => intro Y h; exact absurd rfl h
  | cons c X2 ih =>
    intro Y h
    by_cases hc : p c
    · simp only [List.dropWhile_cons, hc, if_true] at h ⊢
      simp only [List.cons_append, List.dropWhile_cons, hc, if_true]
      exact ih Y h
    · simp only [List.cons_append, List.dropWhile_cons]
      rw [if_neg (by simpa using hc), if_neg (by simpa using hc)]
      simp

theorem rstripSlash_append_left (A B : Chars) (h : rstripSlash B ≠ []) :
    rstripSlash (A ++ B) = A ++ rstripSlash B := by
  unfold rstripSlash at h ⊢
  have h2 : B.reverse.dropWhile (fun c => c == '/') ≠ [] := by
    intro h3
    rw [h3] at h
    exact h rfl
  rw [List.reverse_append, dropWhile_append_pos _ _ h2, List.reverse_append,
    List.reverse_reverse]

theorem rstripSlash_ne_nil (c : Char) (r : Chars) (hc : (c == '/') = false) :
    rstripSlash (c :: r) ≠ [] := by
  intro h
  unfold rstripSlash at h
  rw [List.reverse_eq_nil_iff, List.dropWhile_eq_nil_iff] at h
  have := h c (by simp)
  rw [hc] at this
  cases this

theorem splitOnSlash_ne_nil : ∀ l : Chars, splitOnSlash l ≠ [] := by
  intro l
  cases l with
  | nil => simp [splitOnSlash]
  | cons c rest =>
    simp only [splitOnSlash]
    split_ifs
    · simp
    · cases h : splitOnSlash rest with
      | nil => simp
      | cons t ts => simp

theorem headS (r : Chars) (x : Char) (t : Chars) :
    (splitOnSlash r).head? = some (x :: t) → r.head? = some x := by
  cases r with
  | nil => intro h; simp [splitOnSlash] at h
  | cons c rest =>
    simp only [splitOnSlash]
    split_ifs with hc
    · intro h; simp at h
    · cases h2 : splitOnSlash rest with
      | nil => intro h; simp at h; simp [h.1]
      | cons u us => intro h; simp at h; simp [h.1]

theorem splitB (l : Chars) :
    (splitOnSlash l).head? = some ['.', '.'] → startsW ['.', '.'] l = true := by
  cases l with
  | nil => intro h; simp [splitOnSlash] at h
  | cons c rest =>
    simp only [splitOnSlash]
    split_ifs with hc
    · intro h; simp at h
    · cases h2 : splitOnSlash rest with
      | nil => exact absurd h2 (splitOnSlash_ne_nil rest)
      | cons u us =>
        intro h
        simp only [List.head?_cons, Option.some.injEq] at h
        have hcdot : c = '.' := by
          have := congrArg List.head? h
          simpa using this
        have hu : u = ['.'] := by
          have := congrArg List.tail h
          simpa using this
        have hrest : rest.head? = some '.' := by
          apply headS rest '.' []
          rw [h2, hu]
          rfl
        cases rest with
        | nil => simp at hrest
        | cons d r2 =>
          simp only [List.head?_cons, Option.some.injEq] at hrest
          simp [startsW, hcdot, hrest]

theorem mem_head_or_tail {α : Type} (x : α) (L : List α) (h : x ∈ L) :
    L.head? = some x ∨ x ∈ L.tail := by
  cases L with
  | nil => cases h
  | cons a t =>
    rcases List.mem_cons.mp h with h1 | h2
    · exact Or.inl (by rw [h1]; rfl)
    · exact Or.inr h2

theorem splitA : ∀ l : Chars, ['.', '.'] ∈ (splitOnSlash l).tail → hasSlashDD l = true := by
  intro l
  induction l with
  | nil => intro h; simp [splitOnSlash] at h
  | cons c rest ih =>
    simp only [splitOnSlash]
    split_ifs with hc
    · intro h
      simp only [List.tail_cons] at h
      rcases mem_head_or_tail _ _ h with h1 | h2
      · have := splitB rest h1
        simp only [hasSlashDD, Bool.or_eq_true, Bool.and_eq_true]
        exact Or.inl ⟨hc, this⟩
      · simp only [hasSlashDD, Bool.or_eq_true]
        exact Or.inr (ih h2)
    · cases h2 : splitOnSlash rest with
      | nil => exact absurd h2 (splitOnSlash_ne_nil rest)
      | cons u us =>
        intro h
        simp only [List.tail_cons] at h
        have h3 : ['.', '.'] ∈ (splitOnSlash rest).tail := by
          rw [h2]
          exact h
        simp only [hasSlashDD, Bool.or_eq_true]
        exact Or.inr (ih h3)

theorem no_dd_comp (l : Chars) (h1 : startsW ['.', '.'] l = false)
    (h2 : hasSlashDD l = false) : ['.', '.'] ∉ splitOnSlash l := by
  intro hm
  rcases mem_head_or_tail _ _ hm with hh | ht
  · rw [splitB l hh] at h1
    cases h1
  · rw [splitA l ht] at h2
    cases h2

theorem splitOnSlash_append : ∀ (A B : Chars),
    splitOnSlash (A ++ '/' :: B) = splitOnSlash A ++ splitOnSlash B := by
  intro A
  induction A with
  | nil => simp [splitOnSlash]
  | cons c A2 ih =>
    intro B
    simp only [List.cons_append, splitOnSlash]
    split_ifs with hc
    · simp only [List.append_eq]
      rw [ih B]
      cases h2 : splitOnSlash A2 with
      | nil => exact absurd h2 (splitOnSlash_ne_nil A2)
      | cons u us => simp
    · simp only [List.append_eq]
      rw [ih B]
      cases h2 : splitOnSlash A2 with
      | nil => exact absurd h2 (splitOnSlash_ne_nil A2)
      | cons u us => simp

theorem splitOnSlash_noSlash : ∀ F : Chars, '/' ∉ F → splitOnSlash F = [F] := by
  intro F
  induction F with
  | nil => intro _; rfl
  | cons c F2 ih =>
    intro h
    simp only [splitOnSlash]
    have hc : ¬ (c == '/') = true := by
      simp only [beq_iff_eq]
      intro he
      exact h (he ▸ List.mem_cons_self c F2)
    rw [if_neg hc, ih (fun hm => h (List.mem_cons_of_mem c hm))]

theorem hasSlashDD_fileSlash (z : Chars) :
    hasSlashDD (fileSlashS ++ z) = (startsW ['.', '.'] z || hasSlashDD z) := by
  simp [fileSlashS, hasSlashDD, startsW]

theorem beq_symm_false (c d : Char) (h : (c == d) = false) : (d == c) = false := by
  simp only [beq_eq_false_iff_ne, ne_eq] at h ⊢
  intro he
  exact h he.symm

theorem dockerPath_shape (d5 F : Chars)
    (hdd : hasSlashDD d5 = false)
    (hhead : ∀ c r, d5 = c :: r → (c == '.') = false ∧ (c == '/') = false)
    (hF : '/' ∉ F) (hFdd : F ≠ ['.', '.']) :
    startsW fileSlashS (directoryFmt (fileSlashS ++ d5) ++ F) = true ∧
    ['.', '.'] ∉ splitOnSlash (directoryFmt (fileSlashS ++ d5) ++ F) := by
  cases d5 with
  | nil =>
    have hfmt : directoryFmt (fileSlashS ++ []) = fileS ++ ['/'] := by decide
    rw [hfmt, List.append_assoc, List.singleton_append]
    constructor
    · simp [fileS, fileSlashS, startsW]
    · rw [splitOnSlash_append fileS F, splitOnSlash_noSlash F hF]
      have hfs : splitOnSlash fileS = [fileS] := by decide
      rw [hfs]
      intro hm
      rcases List.mem_append.mp hm with h1 | h2
      · rcases List.mem_singleton.mp h1 with h3
        cases h3
      · exact hFdd (List.mem_singleton.mp h2).symm
  | cons c r =>
    obtain ⟨hcd, hcs⟩ := hhead c r rfl
    have hne : rstripSlash (c :: r) ≠ [] := rstripSlash_ne_nil c r hcs
    have hsplit : rstripSlash (fileSlashS ++ c :: r) =
        fileSlashS ++ rstripSlash (c :: r) := rstripSlash_append_left _ _ hne
    unfold directoryFmt
    rw [hsplit, List.append_assoc, List.append_assoc, List.singleton_append]
    constructor
    · exact startsW_self_append fileSlashS _
    · rw [← List.append_assoc, splitOnSlash_append _ F, splitOnSlash_noSlash F hF]
      intro hm
      rcases List.mem_append.mp hm with h1 | h2
      · have hDdd : startsW ['.', '.'] (fileSlashS ++ rstripSlash (c :: r)) = false := by
          simp [fileSlashS, startsW]
        have hDslash : hasSlashDD (fileSlashS ++ rstripSlash (c :: r)) = false := by
          rw [hasSlashDD_fileSlash]
          have hz1 : startsW ['.', '.'] (rstripSlash (c :: r)) = false := by
            apply startsW_dd_rstrip
            simp only [startsW]
            rw [beq_symm_false c '.' hcd]
            simp
          have hz2 : hasSlashDD (rstripSlash (c :: r)) = false := hasSlashDD_rstrip _ hdd
          simp [hz1, hz2]
        exact no_dd_comp _ hDdd hDslash h1
      · exact hFdd (List.mem_singleton.mp h2).symm

theorem localUriRewriter_docker (env : PyEnv) (uri : Chars)
    (hfn : (posixSplit uri).2 ≠ ['.', '.']) :
    startsW fileSlashS (localUriRewriter env uri).2 = true ∧
    ['.', '.'] ∉ splitOnSlash (localUriRewriter env uri).2 := by
  unfold localUriRewriter
  dsimp only
  apply dockerPath_shape
  · apply hasSlashDD_dropWhile
    apply hasSlashDD_subCaretFileColon
    apply hasSlashDD_subCaretHome
    apply hasSlashDD_subCaretDD
    exact hasSlashDD_subSlashDD _
  · intro c r heq
    unfold pyLstripDotSlash at heq
    have hp := head_dropWhile_false _ _ c r heq
    simp only [Bool.or_eq_false_iff] at hp
    exact hp
  · exact posixSplit_snd_noSlash uri
  · exact hfn

theorem validate_ok_fn (u : Chars) (r : Bool) (h : validatePathsOrFail u r = .ok ()) :
    (posixSplit u).2 ≠ ['.', '.'] := by
  intro heq
  unfold validatePathsOrFail at h
  rw [heq] at h
  split_ifs at h <;> simp_all

/-- Claim C2 (amended): for every local URI that passes the path policy
check, the docker path produced by the local URI rewriter (before the
caller-supplied mount path is joined) starts with the literal `file/`
and contains no path component equal to `..`; the two-character
substring `..` can however still occur inside a longer component (for
instance in a filename such as `a..b`), which the policy check does
not reject. -/
theorem c2_docker_path_components (env : PyEnv) (uri : Chars) (r : Bool)
    (h : validatePathsOrFail uri r = .ok ()) :
    startsW fileSlashS (localUriRewriter env uri).2 = true ∧
    ['.', '.'] ∉ splitOnSlash (localUriRewriter env uri).2 :=
  localUriRewriter_docker env uri (validate_ok_fn uri r h)

/-- Claim C2 counterexample: `/tmp/a..b` passes the path policy check
(its filename is neither `.` nor `..`), yet its docker path
`file/tmp/a..b` contains the substring `..`, refuting the claim as
stated. -/
theorem c2_docker_path_components_cex :
    validatePathsOrFail ['/', 't', 'm', 'p', '/', 'a', '.', '.', 'b'] false = .ok () ∧
    hasSub ['.', '.'] (localUriRewriter ⟨['/', 'h'], ['/', 'w']⟩
      ['/', 't', 'm', 'p', '/', 'a', '.', '.', 'b']).2 = true := by
  refine ⟨by decide, ?_⟩
  have hU : (localUriRewriter ⟨['/', 'h'], ['/', 'w']⟩
      ['/', 't', 'm', 'p', '/', 'a', '.', '.', 'b']).2 =
      ['f', 'i', 'l', 'e', '/', 't', 'm', 'p', '/', 'a', '.', '.', 'b'] := by
    unfold localUriRewriter
    dsimp only
    have hn : normpath (posixSplit ['/', 't', 'm', 'p', '/', 'a', '.', '.', 'b']).1 =
        ['/', 't', 'm', 'p'] := by decide
    rw [hn]
    have hs : subSlashDD ['/', 't', 'm', 'p'] = ['/', 't', 'm', 'p'] := by
      simp +decide [subSlashDD, startsW]
    rw [hs]
    decide
  rw [hU]
  decide

/-- Claim C2 witness: the accepted URI `../up/f.txt` (whose docker path
rewrites the indirection to `_dotdot_`) starts with `file/` and has no
`..` component. -/
theorem c2_docker_path_components_witness :
    validatePathsOrFail ['.', '.', '/', 'u', 'p', '/', 'f'] false = .ok () ∧
    startsW fileSlashS (localUriRewriter ⟨['/', 'h'], ['/', 'w']⟩
      ['.', '.', '/', 'u', 'p', '/', 'f']).2 = true ∧
    ['.', '.'] ∉ splitOnSlash (localUriRewriter ⟨['/', 'h'], ['/', 'w']⟩
      ['.', '.', '/', 'u', 'p', '/', 'f']).2 := by
  refine ⟨by decide, ?_, ?_⟩
  · exact (c2_docker_path_components ⟨['/', 'h'], ['/', 'w']⟩
      ['.', '.', '/', 'u', 'p', '/', 'f'] false (by decide)).1
  · exact (c2_docker_path_components ⟨['/', 'h'], ['/', 'w']⟩
      ['.', '.', '/', 'u', 'p', '/', 'f'] false (by decide)).2
